import Mathlib

/-! Peer-to-peer IP discovery of the Sia gateway (`modules/gateway/ip.go`).

A shallow embedding of `Gateway.discoverPeerIP` and `Gateway.managedIPFromPeers`
together with the library routines they call, followed by the properties of the
discovery protocol.

Go strings are byte strings.  Every byte the routines below inspect is an ASCII
byte, and every slice they take starts right after an ASCII byte, so a string is
represented by its list of characters (`List Char`); a non-ASCII character plays
the part of its UTF-8 bytes, none of which is a digit, a letter `a`-`f`, a dot,
a colon or a bracket.
-/

namespace Sia

/-! ## Package `net` of the Go standard library

`net.ParseIP`, `net.IP.String` and `net.SplitHostPort` are not part of the
repository; they are transcribed from the Go standard library (`net/ip.go`,
`net/parse.go`, `net/ipsock.go`) in the form the repository was built with
(the hand-written parser, with zones not allowed in `ParseIP`).
-/

namespace GoNet

/-- An `net.IP`: a slice of bytes, each byte a natural number below 256. -/
abbrev IP := List Nat

/-- The constant `big = 0xFFFFFF` of `net/parse.go`: "bigger than we need, not
too big to worry about overflow". -/
def big : Nat := 0xFFFFFF

/-- The constants `IPv4len = 4` and `IPv6len = 16`. -/
def IPv4len : Nat := 4

/-- The length of an IPv6 address in bytes. -/
def IPv6len : Nat := 16

/-- The test `'0' <= c && c <= '9'`. -/
def isDec (c : Char) : Bool := decide (48 ≤ c.toNat) && decide (c.toNat ≤ 57)

/-- The test `'a' <= c && c <= 'f'`. -/
def isLowerHex (c : Char) : Bool := decide (97 ≤ c.toNat) && decide (c.toNat ≤ 102)

/-- The test `'A' <= c && c <= 'F'`. -/
def isUpperHex (c : Char) : Bool := decide (65 ≤ c.toNat) && decide (c.toNat ≤ 70)

/-- The loop of `dtoi`: `n` is the number read so far and `i` the number of
bytes consumed.  `none` is the early return `big, i, false`; otherwise the loop
ends with the number, the count and the unread rest `s[i:]`. -/
def dtoiLoop : List Char → Nat → Nat → Option (Nat × Nat × List Char)
  | [], n, i => some (n, i, [])
  | c :: cs, n, i =>
    if isDec c then
      let n1 := n * 10 + (c.toNat - 48)
      if n1 ≥ big then none else dtoiLoop cs n1 (i + 1)
    else some (n, i, c :: cs)

/-- The function `dtoi` (decimal to integer): `some (n, s[i:])` stands for the
result `n, i, true`, and `none` for a result with `ok = false`. -/
def dtoi (s : List Char) : Option (Nat × List Char) :=
  match dtoiLoop s 0 0 with
  | none => none
  | some (n, i, rest) => if i = 0 then none else some (n, rest)

/-- The loop of `xtoi`, as `dtoiLoop` for hexadecimal digits of either case. -/
def xtoiLoop : List Char → Nat → Nat → Option (Nat × Nat × List Char)
  | [], n, i => some (n, i, [])
  | c :: cs, n, i =>
    if isDec c then
      let n1 := n * 16 + (c.toNat - 48)
      if n1 ≥ big then none else xtoiLoop cs n1 (i + 1)
    else if isLowerHex c then
      let n1 := n * 16 + (c.toNat - 97 + 10)
      if n1 ≥ big then none else xtoiLoop cs n1 (i + 1)
    else if isUpperHex c then
      let n1 := n * 16 + (c.toNat - 65 + 10)
      if n1 ≥ big then none else xtoiLoop cs n1 (i + 1)
    else some (n, i, c :: cs)

/-- The function `xtoi` (hexadecimal to integer), results as for `dtoi`. -/
def xtoi (s : List Char) : Option (Nat × List Char) :=
  match xtoiLoop s 0 0 with
  | none => none
  | some (n, i, rest) => if i = 0 then none else some (n, rest)

/-- The slice `v4InV6Prefix`. -/
def v4InV6Prefix : IP := [0, 0, 0, 0, 0, 0, 0, 0, 0, 0, 0xff, 0xff]

/-- The function `IPv4(a, b, c, d)`: the 16-byte form of an IPv4 address. -/
def IPv4 (a b c d : Nat) : IP := v4InV6Prefix ++ [a, b, c, d]

/-- The loop of `parseIPv4` over the octets `i, i+1, ...`, `k` of them left;
it returns the octets read and the unread rest of the string. -/
def parseIPv4Octets : Nat → Nat → List Char → Option (List Nat × List Char)
  | 0, _, s => some ([], s)
  | k + 1, i, s =>
    match s with
    | [] => none
    | c :: cs =>
      if i > 0 ∧ c ≠ '.' then none
      else
        match dtoi (if i > 0 then cs else c :: cs) with
        | none => none
        | some (n, rest) =>
          if n > 0xFF then none
          else
            match parseIPv4Octets k (i + 1) rest with
            | none => none
            | some (ps, r) => some (n :: ps, r)

/-- The function `parseIPv4`: four decimal octets separated by dots and nothing
after them. -/
def parseIPv4 (s : List Char) : Option IP :=
  match parseIPv4Octets IPv4len 0 s with
  | some ([a, b, c, d], []) => some (IPv4 a b c d)
  | _ => none

/-- The main loop of `parseIPv6`.  `acc` holds the bytes `ip[0:i]` written so
far (so `i = acc.length`) and `ell` is the position of the ellipsis (`none`
for `-1`).  The result is the state at the exit of the loop, or `none` where
the source returns `nil`. -/
def parseIPv6Loop : Nat → List Char → List Nat → Option Nat →
    Option (List Char × List Nat × Option Nat)
  | 0, s, acc, ell => if acc.length < IPv6len then none else some (s, acc, ell)
  | fuel + 1, s, acc, ell =>
    if ¬ acc.length < IPv6len then some (s, acc, ell)
    else
      match xtoi s with
      | none => none
      | some (n, rest) =>
        if n > 0xFFFF then none
        else if rest.head? = some '.' then
          if ell = none ∧ acc.length ≠ IPv6len - IPv4len then none
          else if acc.length + IPv4len > IPv6len then none
          else
            match parseIPv4 s with
            | none => none
            | some ip4 => some ([], acc ++ ip4.drop 12, ell)
        else
          let acc1 := acc ++ [n / 256, n % 256]
          match rest with
          | [] => some ([], acc1, ell)
          | c :: rest1 =>
            if c ≠ ':' ∨ rest1 = [] then none
            else
              match rest1 with
              | ':' :: rest2 =>
                if ell ≠ none then none
                else if rest2 = [] then some ([], acc1, some acc1.length)
                else parseIPv6Loop fuel rest2 acc1 (some acc1.length)
              | _ => parseIPv6Loop fuel rest1 acc1 ell

/-- The end of `parseIPv6`: the whole string must be used, and the ellipsis is
expanded when fewer than 16 bytes were read. -/
def parseIPv6Finish : Option (List Char × List Nat × Option Nat) → Option IP
  | none => none
  | some (s, acc, ell) =>
    if s ≠ [] then none
    else if acc.length < IPv6len then
      match ell with
      | none => none
      | some e =>
        some (acc.take e ++ List.replicate (IPv6len - acc.length) 0 ++ acc.drop e)
    else if ell ≠ none then none
    else some acc

/-- The function `parseIPv6` with `zoneAllowed = false`, as `ParseIP` calls it. -/
def parseIPv6 (s : List Char) : Option IP :=
  match s with
  | [':', ':'] => some (List.replicate IPv6len 0)
  | ':' :: ':' :: s1 => parseIPv6Finish (parseIPv6Loop 8 s1 [] (some 0))
  | _ => parseIPv6Finish (parseIPv6Loop 8 s [] none)

/-- The scan of `ParseIP`: the first dot or colon decides between the two
parsers; `rest` is the part of the string still to scan. -/
def parseIPScan (s : List Char) : List Char → Option IP
  | [] => none
  | c :: cs =>
    if c = '.' then parseIPv4 s
    else if c = ':' then parseIPv6 s
    else parseIPScan s cs

/-- The function `net.ParseIP`; `none` is the `nil` address. -/
def ParseIP (s : String) : Option IP := parseIPScan s.toList s.toList

/-- The digit `'0' + v` of `uitoa`, for `v < 10`. -/
def decDigit (v : Nat) : Char := Char.ofNat (48 + v)

/-- The loop of `uitoa`, filling its buffer from the right. -/
def uitoaLoop : Nat → Nat → List Char → List Char
  | 0, val, buf => decDigit val :: buf
  | fuel + 1, val, buf =>
    if val ≥ 10 then uitoaLoop fuel (val / 10) (decDigit (val % 10) :: buf)
    else decDigit val :: buf

/-- The function `uitoa`: an unsigned integer in decimal (its buffer holds 20
digits). -/
def uitoa (val : Nat) : List Char :=
  if val = 0 then ['0'] else uitoaLoop 20 val []

/-- The table `hexDigit = "0123456789abcdef"`, indexed by a value below 16. -/
def hexDigit (v : Nat) : Char :=
  if v < 10 then Char.ofNat (48 + v) else Char.ofNat (97 + (v - 10))

/-- The loop of `appendHex` over `j = k-1, ..., 0`. -/
def appendHexLoop : Nat → List Char → Nat → List Char
  | 0, dst, _ => dst
  | k + 1, dst, i =>
    let v := i / 16 ^ k
    appendHexLoop k (if v > 0 then dst ++ [hexDigit (v % 16)] else dst) i

/-- The function `appendHex`: a `uint32` in hexadecimal without leading zeros. -/
def appendHex (dst : List Char) (i : Nat) : List Char :=
  if i = 0 then dst ++ ['0'] else appendHexLoop 8 dst i

/-- The function `hexString`: two hexadecimal digits per byte. -/
def hexString (b : List Nat) : List Char :=
  b.flatMap fun tn => [hexDigit (tn / 16), hexDigit (tn % 16)]

/-- The method `IP.To4`; `none` is the `nil` result. -/
def To4 (ip : IP) : Option IP :=
  if ip.length = IPv4len then some ip
  else if ip.length = IPv6len ∧ (ip.take 10).all (fun b => b == 0) ∧
      ip.getD 10 0 = 0xff ∧ ip.getD 11 0 = 0xff then some (ip.drop 12)
  else none

/-- The inner loop of the search for the longest run of zeros: the first even
`j ≥ i` at which the two bytes are not both zero (or `IPv6len`). -/
def zeroRunEnd (p : IP) : Nat → Nat → Nat
  | 0, j => j
  | fuel + 1, j =>
    if j < IPv6len ∧ p.getD j 0 = 0 ∧ p.getD (j + 1) 0 = 0 then zeroRunEnd p fuel (j + 2)
    else j

/-- The outer loop of the search for the longest run of zeros, from index `i`
with the best run `e0, e1` so far (`-1, -1` when there is none). -/
def longestZeroRun (p : IP) : Nat → Nat → Int → Int → Int × Int
  | 0, _, e0, e1 => (e0, e1)
  | fuel + 1, i, e0, e1 =>
    if ¬ i < IPv6len then (e0, e1)
    else
      let j := zeroRunEnd p 8 i
      if j > i ∧ (j : Int) - i > e1 - e0 then longestZeroRun p fuel (j + 2) i j
      else longestZeroRun p fuel (i + 2) e0 e1

/-- The printing loop of `IP.String` from index `i`, appending to `b`. -/
def printGroups (p : IP) (e0 e1 : Int) : Nat → Nat → List Char → List Char
  | 0, _, b => b
  | fuel + 1, i, b =>
    if ¬ i < IPv6len then b
    else if (i : Int) = e0 then
      let b1 := b ++ [':', ':']
      let i1 := e1.toNat
      if i1 ≥ IPv6len then b1
      else printGroups p e0 e1 fuel (i1 + 2)
        (appendHex b1 (p.getD i1 0 * 256 + p.getD (i1 + 1) 0))
    else
      let b1 := if i > 0 then b ++ [':'] else b
      printGroups p e0 e1 fuel (i + 2) (appendHex b1 (p.getD i 0 * 256 + p.getD (i + 1) 0))

/-- The characters of `IP.String()`. -/
def ipChars (ip : IP) : List Char :=
  if ip.length = 0 then "<nil>".toList
  else
    match To4 ip with
    | some [a, b, c, d] => uitoa a ++ '.' :: uitoa b ++ '.' :: uitoa c ++ '.' :: uitoa d
    | _ =>
      if ip.length ≠ IPv6len then '?' :: hexString ip
      else
        let e := longestZeroRun ip 8 0 (-1) (-1)
        let e := if e.2 - e.1 ≤ 2 then ((-1 : Int), (-1 : Int)) else e
        printGroups ip e.1 e.2 8 0 []

/-- The method `net.IP.String`. -/
def IPString (ip : IP) : String := String.mk (ipChars ip)

/-- The error type `net.AddrError`. -/
structure AddrError where
  Err : String
  Addr : String
deriving DecidableEq, Repr

/-- The method `AddrError.Error`. -/
def AddrError.Error (e : AddrError) : String :=
  if e.Addr ≠ "" then "address " ++ e.Addr ++ ": " ++ e.Err else e.Err

/-- The helper `bytealg.IndexByteString`: the first index of `c`, `none` for `-1`. -/
def indexByte (s : List Char) (c : Char) : Option Nat :=
  if s.indexOf c < s.length then some (s.indexOf c) else none

/-- The helper `bytealg.LastIndexByteString`: the last index of `c`, `none` for `-1`. -/
def lastIndexByte (s : List Char) (c : Char) : Option Nat :=
  if s.reverse.indexOf c < s.length then some (s.length - 1 - s.reverse.indexOf c) else none

/-- The messages `missingPort` and `tooManyColons` of `SplitHostPort`. -/
def missingPort : String := "missing port in address"

/-- The message for a colon in the wrong place. -/
def tooManyColons : String := "too many colons in address"

/-- The middle of `SplitHostPort`, with `i` the index of the last colon: the
host and the positions `j`, `k` from which no `[` resp. `]` may follow, or the
reason of the failure. -/
def splitHost (hp : List Char) (i : Nat) : Except String (List Char × Nat × Nat) :=
  if hp.head? = some '[' then
    match indexByte hp ']' with
    | none => .error "missing ']' in address"
    | some e =>
      if e + 1 = hp.length then .error missingPort
      else if e + 1 = i then .ok ((hp.take e).drop 1, 1, e + 1)
      else if hp.getD (e + 1) ' ' = ':' then .error tooManyColons
      else .error missingPort
  else if (indexByte (hp.take i) ':').isSome then .error tooManyColons
  else .ok (hp.take i, 0, 0)

/-- The function `net.SplitHostPort`: splits `host:port`, `[host]:port` or
`[host%zone]:port` into host and port. -/
def SplitHostPort (hostport : String) : Except AddrError (String × String) :=
  let hp := hostport.toList
  match lastIndexByte hp ':' with
  | none => .error ⟨missingPort, hostport⟩
  | some i =>
    match splitHost hp i with
    | .error why => .error ⟨why, hostport⟩
    | .ok (host, j, k) =>
      if (indexByte (hp.drop j) '[').isSome then .error ⟨"unexpected '[' in address", hostport⟩
      else if (indexByte (hp.drop k) ']').isSome then
        .error ⟨"unexpected ']' in address", hostport⟩
      else .ok (String.mk host, String.mk (hp.drop (i + 1)))

/-! ### Notions used in the proofs on `ParseIP` and `String` -/

/-- The hexadecimal digits that `appendHex` produces for a 16-bit group. -/
def hexStr (g : Nat) : List Char :=
  if g = 0 then ['0']
  else
    (if g / 4096 > 0 then [hexDigit (g / 4096 % 16)] else []) ++
    (if g / 256 > 0 then [hexDigit (g / 256 % 16)] else []) ++
    (if g / 16 > 0 then [hexDigit (g / 16 % 16)] else []) ++ [hexDigit (g % 16)]

/-- A string that does not go on with a decimal digit. -/
def endsDec (rest : List Char) : Prop := ∀ c ∈ rest.head?, isDec c = false

/-- A string that does not go on with a hexadecimal digit: it is over or goes
on with a colon. -/
def endsHex (rest : List Char) : Prop := rest = [] ∨ ∃ r, rest = ':' :: r

/-- The 16-bit group of the address at byte index `i`. -/
def group (p : IP) (i : Nat) : Nat := p.getD i 0 * 256 + p.getD (i + 1) 0

/-- An address as `ParseIP` returns it: 16 bytes. -/
def validIP (p : IP) : Prop := p.length = 16 ∧ ∀ b ∈ p, b < 256

/-- The bytes of `p` at the indices from `a` up to `b` are zero. -/
def zerosOn (p : IP) (a b : Nat) : Prop := ∀ t, a ≤ t → t < b → p.getD t 0 = 0

/-- What the search for the longest run of zeros may return: no run, or a
run of zero bytes that starts and ends at even indices. -/
def goodRun (p : IP) (e0 e1 : Int) : Prop :=
  (e0 = -1 ∧ e1 = -1) ∨
    ∃ a b : Nat, e0 = a ∧ e1 = b ∧ a < b ∧ b ≤ 16 ∧ a % 2 = 0 ∧ b % 2 = 0 ∧ zerosOn p a b

/-- The invariant of the loop of `parseIPv6`: bytes below 256, an even number
of them, at most 16, and the ellipsis not beyond them. -/
def loopInv (acc : List Nat) (ell : Option Nat) : Prop :=
  (∀ b ∈ acc, b < 256) ∧ acc.length % 2 = 0 ∧ acc.length ≤ 16 ∧
    ∀ e, ell = some e → e ≤ acc.length

/-- The characters that can occur in a string `ParseIP` accepts. -/
def addrChar (c : Char) : Prop :=
  isDec c = true ∨ isLowerHex c = true ∨ isUpperHex c = true ∨ c = '.' ∨ c = ':'

end GoNet

/-! ## The gateway: `modules/gateway/ip.go` -/

namespace Gateway

/-- The server side of a `modules.PeerConn`, as `discoverPeerIP` uses it: the
remote endpoint, the answer of the transport to a write, the deadline in force
and the objects handed to `encoding.WriteObject`, oldest first. -/
structure PeerConn where
  remoteAddr : String
  writeErr : Option String
  deadline : Option Nat
  written : List String

/-- The call `conn.SetDeadline(t)`. -/
def PeerConn.SetDeadline (conn : PeerConn) (t : Nat) : PeerConn :=
  { conn with deadline := some t }

/-- Modelled from the spec: `encoding.WriteObject` (package `encoding` of the
repository), which writes "the host string back over the channel using a
length-delimited encoding": the object is handed to the connection, and the
result is the error of the transport, if it has one. -/
def WriteObject (conn : PeerConn) (obj : String) : PeerConn × Option String :=
  ({ conn with written := conn.written ++ [obj] }, conn.writeErr)

/-- The function `errors.AddContext(err, s)` of the package
`github.com/NebulousLabs/errors`: the message of the error with the context
put in front of it. -/
def AddContext (err : GoNet.AddrError) (s : String) : String :=
  s ++ ": " ++ err.Error

/-- The handler `Gateway.discoverPeerIP` of the `DiscoverIP` RPC.  `now` is
`time.Now()` and `connStdDeadline` the constant of that name; the result is the
connection afterwards and the error returned (`none` for `nil`). -/
def discoverPeerIP (now connStdDeadline : Nat) (conn : PeerConn) : PeerConn × Option String :=
  let conn := conn.SetDeadline (now + connStdDeadline)
  match GoNet.SplitHostPort conn.remoteAddr with
  | .error err => (conn, some (AddContext err "failed to split host from port"))
  | .ok (host, _) => WriteObject conn host

/-- What a connection opened to a peer yields to the caller that reads one
object from it: a communication failure, or the string the peer wrote. -/
inductive Exchange where
  | failed (err : String)
  | response (payload : String)

/-- Modelled from the spec: `encoding.ReadObject(conn, &address, maxLen)`
(package `encoding` of the repository), which "reads back a length-bounded
string (reject if it exceeds a fixed byte ceiling, e.g. 100 bytes)". -/
def ReadObject (conn : Exchange) (maxLen : Nat) : Except String String :=
  match conn with
  | .failed err => .error err
  | .response payload =>
    if payload.utf8ByteSize > maxLen then .error "object exceeds the length limit"
    else .ok payload

/-- The closure that `managedIPFromPeers` passes to `g.RPC`.  The first
component lists the values it sends on `returnChan`, the second is the error it
returns. -/
def discoverIPHandler (conn : Exchange) : List String × Option String :=
  match ReadObject conn 100 with
  | .error err => ([""], some err)
  | .ok address =>
    match GoNet.ParseIP address with
    | none => ([""], some "failed to parse ip address")
    | some addr => ([GoNet.IPString addr], none)

/-- Modelled from the spec: `Gateway.RPC` (the RPCDispatch collaborator), which
"given a peer address, a method name, and a handler function, opens a
PeerChannel, performs protocol handshake, and invokes the handler with that
channel".  `net` gives the channel that a peer and a method name lead to. -/
def RPC {α : Type} (net : String → String → Exchange) (addr name : String)
    (fn : Exchange → α) : α :=
  fn (net addr name)

/-- The map `addresses`: its entries, each key at most once. -/
abbrev Tally := List (String × Nat)

/-- The read `addresses[addr]` (zero for a missing key). -/
def count (m : Tally) (addr : String) : Nat :=
  match m with
  | [] => 0
  | (k, c) :: rest => if k = addr then c else count rest addr

/-- The statement `addresses[addr]++`. -/
def incr (m : Tally) (addr : String) : Tally :=
  match m with
  | [] => [(addr, 1)]
  | (k, c) :: rest => if k = addr then (k, c + 1) :: rest else (k, c) :: incr rest addr

/-- The sum of all counts of the tally. -/
def total (m : Tally) : Nat := (m.map Prod.snd).sum

/-- An order chosen by the environment: the element at index `k % length` is
taken first, then the choice goes on among the others; when the choices run
out the remaining elements follow in their order.  It stands both for the
order in which senders on a channel are served and for the iteration order of
`range` over a map. -/
def pickOrder {α : Type} : List Nat → List α → List α
  | [], xs => xs
  | k :: ks, xs =>
    match xs with
    | [] => []
    | x :: rest =>
      (x :: rest).getD (k % (rest.length + 1)) x ::
        pickOrder ks ((x :: rest).eraseIdx (k % (rest.length + 1)))

/-- One receive `<-returnChan` on the unbuffered channel: `tasks` lists for
every task the values it still has to send, and the `k`-th task that stands
ready to send hands over its next value (the last ready one when there are
fewer).  `none` means no task will ever send: the receiver blocks for good. -/
def recvOne : Nat → List (List String) → Option (String × List (List String))
  | _, [] => none
  | k, [] :: ts =>
    match recvOne k ts with
    | none => none
    | some (w, ts1) => some (w, [] :: ts1)
  | 0, (v :: vs) :: ts => some (v, vs :: ts)
  | k + 1, (v :: vs) :: ts =>
    match recvOne k ts with
    | none => some (v, vs :: ts)
    | some (w, ts1) => some (w, (v :: vs) :: ts1)

/-- The receives of the collection loop `for i := 0; i < len(peers); i++`:
`n` receives, scheduled by `sched`.  The result holds the values in the order
received and what the tasks are left with; `none` when a receive blocks. -/
def drain : Nat → List Nat → List (List String) → Option (List String × List (List String))
  | 0, _, ts => some ([], ts)
  | n + 1, sched, ts =>
    match recvOne (sched.headD 0) ts with
    | none => none
    | some (v, ts1) =>
      match drain n sched.tail ts1 with
      | none => none
      | some (vs, r) => some (v :: vs, r)

/-- The variables of the collection loop: the tally, the counter of non-empty
results and the loop counter `i` (the results drained so far). -/
structure Collect where
  addresses : Tally
  successfulResponses : Nat
  peersQueried : Nat
deriving DecidableEq, Repr

/-- The state before the collection loop. -/
def Collect.init : Collect := ⟨[], 0, 0⟩

/-- The body of the collection loop for one received value. -/
def collectStep (st : Collect) (addr : String) : Collect :=
  if addr ≠ "" then
    ⟨incr st.addresses addr, st.successfulResponses + 1, st.peersQueried + 1⟩
  else ⟨st.addresses, st.successfulResponses, st.peersQueried + 1⟩

/-- The collection loop over the values in the order received. -/
def collect (received : List String) : Collect :=
  received.foldl collectStep Collect.init

/-- The loop `for addr, count := range addresses` over the entries in the
order of iteration: the first entry with `count > successfulResponses/2` is
returned. -/
def findMajority (entries : List (String × Nat)) (successfulResponses : Nat) : Option String :=
  match entries with
  | [] => none
  | (addr, c) :: rest =>
    if c > successfulResponses / 2 then some addr else findMajority rest successfulResponses

/-- What one round is exposed to: the snapshot `g.Peers()` (the peers'
addresses), the channel each peer and method lead to, the order in which the
tasks are served on `returnChan`, the iteration order of the map, and whether
shutdown is signalled after the check of this round and before its wait step
(`stopEarly`, for instance while results are awaited) or during the wait step
(`stopInWait`). -/
structure RoundEnv where
  peers : List String
  net : String → String → Exchange
  arrival : List Nat
  mapOrder : List Nat
  stopEarly : Bool
  stopInWait : Bool

/-- The observable steps of the coordinator. -/
inductive Event where
  | check (stopped : Bool)
  | dispatch (peer : String)
  | recv (addr : String)
  | wait
deriving DecidableEq, Repr

/-- How a round ends: with a return of the address found, with the wait step
`waitForPeerDiscoverySignal` and `continue` (carrying whether `StopChan` is
closed by then), or blocked on a receive. -/
inductive RoundOutcome where
  | returned (addr : String)
  | retry (stopped : Bool)
  | blocked
deriving DecidableEq, Repr

/-- The values every task of a round sends: one task `go g.RPC(...)` per peer
of the snapshot. -/
def roundTasks (env : RoundEnv) : List (List String) :=
  env.peers.map fun peer => (RPC env.net peer "DiscoverIP" discoverIPHandler).1

/-- The successful end of the collection of a round, if no receive blocks. -/
def roundCollect (env : RoundEnv) : Option Collect :=
  match drain env.peers.length env.arrival (roundTasks env) with
  | none => none
  | some (received, _) => some (collect received)

/-- The state of `StopChan` after the wait step `waitForPeerDiscoverySignal`
of a round whose check found it open: closed if shutdown was signalled since. -/
def retryFlag (env : RoundEnv) : Bool := env.stopEarly || env.stopInWait

/-- The body of the loop of `managedIPFromPeers` after the shutdown check:
the steps taken and the way the round ends. -/
def pollRound (minPeersForIPDiscovery : Nat) (env : RoundEnv) : List Event × RoundOutcome :=
  if env.peers.length < minPeersForIPDiscovery then
    ([.wait], .retry (retryFlag env))
  else
    let dispatched := env.peers.map Event.dispatch
    match drain env.peers.length env.arrival (roundTasks env) with
    | none => (dispatched, .blocked)
    | some (received, _) =>
      let st := collect received
      let steps := dispatched ++ received.map Event.recv
      if st.successfulResponses < minPeersForIPDiscovery then
        (steps ++ [.wait], .retry (retryFlag env))
      else
        match findMajority (pickOrder env.mapOrder st.addresses) st.successfulResponses with
        | some addr => (steps, .returned addr)
        | none => (steps ++ [.wait], .retry (retryFlag env))

/-- The state of a call of `managedIPFromPeers`: returned (address and error,
`none` for `nil`), still in the loop when the rounds described are over (the
check of the round that follows them has passed), or blocked on a receive. -/
inductive Result where
  | returned (addr : String) (err : Option String)
  | running
  | blocked
deriving DecidableEq, Repr

/-- The function `Gateway.managedIPFromPeers`, run over the rounds described
by `envs`; `stopped` tells whether `StopChan` is closed when the round starts.
The result comes with the steps taken. -/
def managedIPFromPeers (minPeersForIPDiscovery : Nat) :
    Bool → List RoundEnv → List Event × Result
  | true, _ => ([.check true], .returned "" (some "interrupted by shutdown"))
  | false, [] => ([.check false], .running)
  | false, env :: envs =>
    match pollRound minPeersForIPDiscovery env with
    | (steps, .returned addr) => (.check false :: steps, .returned addr none)
    | (steps, .blocked) => (.check false :: steps, .blocked)
    | (steps, .retry stopped) =>
      let next := managedIPFromPeers minPeersForIPDiscovery stopped envs
      (.check false :: steps ++ next.1, next.2)

/-- A network in which the peers listed answer with the given strings and
every other peer fails to answer. -/
def answers (table : List (String × String)) : String → String → Exchange :=
  fun peer _ =>
    match table.lookup peer with
    | some payload => .response payload
    | none => .failed "connection reset"

/-- Scenario A: five peers, four answer `203.0.113.5` and one fails. -/
def scenarioA : RoundEnv :=
  { peers := ["p1", "p2", "p3", "p4", "p5"]
    net := answers [("p1", "203.0.113.5"), ("p2", "203.0.113.5"), ("p4", "203.0.113.5"),
      ("p5", "203.0.113.5")]
    arrival := [3, 1]
    mapOrder := []
    stopEarly := false
    stopInWait := false }

/-- Scenario B: three peers, answers `203.0.113.5` and `203.0.113.9` and one
failure. -/
def scenarioB : RoundEnv :=
  { peers := ["p1", "p2", "p3"]
    net := answers [("p1", "203.0.113.5"), ("p2", "203.0.113.9")]
    arrival := [2]
    mapOrder := [1]
    stopEarly := false
    stopInWait := false }

/-- A tie: four peers, two answer `203.0.113.5` and two `203.0.113.9`. -/
def scenarioTie : RoundEnv :=
  { peers := ["p1", "p2", "p3", "p4"]
    net := answers [("p1", "203.0.113.5"), ("p2", "203.0.113.9"), ("p3", "203.0.113.5"),
      ("p4", "203.0.113.9")]
    arrival := [1, 2]
    mapOrder := [1]
    stopEarly := false
    stopInWait := false }

/-- Two peers only, both answering `203.0.113.5`; shutdown is signalled during
the wait step. -/
def scenarioFewPeers : RoundEnv :=
  { peers := ["p1", "p2"]
    net := answers [("p1", "203.0.113.5"), ("p2", "203.0.113.5")]
    arrival := []
    mapOrder := []
    stopEarly := false
    stopInWait := true }

/-- An inbound connection from `198.51.100.7:4400` whose transport accepts
writes. -/
def inboundConn : PeerConn :=
  { remoteAddr := "198.51.100.7:4400", writeErr := none, deadline := none, written := [] }

/-- The state of `StopChan` that the check of the round after the rounds
`envs` observes, when every one of these rounds ends with the wait step;
`none` when the call has returned or blocked before. -/
def afterRounds (minPeersForIPDiscovery : Nat) : Bool → List RoundEnv → Option Bool
  | stopped, [] => some stopped
  | true, _ :: _ => none
  | false, env :: envs =>
    match (pollRound minPeersForIPDiscovery env).2 with
    | .retry stopped => afterRounds minPeersForIPDiscovery stopped envs
    | _ => none

end Gateway

/-! ## `ParseIP` after `String` -/

namespace GoNet

theorem decDigit_spec (d : Nat) (h : d < 10) :
    isDec (decDigit d) = true ∧ (decDigit d).toNat - 48 = d ∧
      decDigit d ≠ '.' ∧ decDigit d ≠ ':' := by
  interval_cases d <;> decide

theorem hexDigit_spec (v : Nat) (h : v < 16) :
    hexDigit v ≠ '.' ∧ hexDigit v ≠ ':' ∧
    ((isDec (hexDigit v) = true ∧ (hexDigit v).toNat - 48 = v) ∨
     (isDec (hexDigit v) = false ∧ isLowerHex (hexDigit v) = true ∧
        (hexDigit v).toNat - 97 + 10 = v)) := by
  interval_cases v <;> decide

theorem dtoiLoop_digit (d : Nat) (h : d < 10) (cs : List Char) (n i : Nat) :
    dtoiLoop (decDigit d :: cs) n i =
      if n * 10 + d ≥ big then none else dtoiLoop cs (n * 10 + d) (i + 1) := by
  obtain ⟨h1, h2, -, -⟩ := decDigit_spec d h
  simp only [dtoiLoop, h1, if_true, h2]

theorem xtoiLoop_digit (v : Nat) (h : v < 16) (cs : List Char) (n i : Nat) :
    xtoiLoop (hexDigit v :: cs) n i =
      if n * 16 + v ≥ big then none else xtoiLoop cs (n * 16 + v) (i + 1) := by
  obtain ⟨-, -, h1 | h1⟩ := hexDigit_spec v h
  · simp only [xtoiLoop, h1.1, if_true, h1.2]
  · simp only [xtoiLoop, h1.1, h1.2.1, if_true, h1.2.2]
    simp

theorem uitoa_byte (v : Nat) (h : v < 256) :
    uitoa v =
      if v < 10 then [decDigit v]
      else if v < 100 then [decDigit (v / 10), decDigit (v % 10)]
      else [decDigit (v / 100), decDigit (v / 10 % 10), decDigit (v % 10)] := by
  by_cases h0 : v = 0
  · subst h0
    rfl
  · by_cases h1 : v < 10
    · have : ¬ v ≥ 10 := by omega
      simp [uitoa, h0, uitoaLoop, h1, this]
    · by_cases h2 : v < 100
      · have a1 : v ≥ 10 := by omega
        have a2 : ¬ v / 10 ≥ 10 := by omega
        simp only [uitoa, h0, uitoaLoop, h1, h2, a1, a2, if_true, if_false]
      · have a1 : v ≥ 10 := by omega
        have a2 : v / 10 ≥ 10 := by omega
        have a3 : ¬ v / 10 / 10 ≥ 10 := by omega
        have a4 : v / 10 / 10 = v / 100 := by omega
        have a5 : ¬ v / 100 ≥ 10 := by omega
        simp only [uitoa, h0, uitoaLoop, h1, h2, a1, a2, a3, a4, a5, if_true, if_false]

theorem dtoiLoop_end (rest : List Char) (h : endsDec rest) (n i : Nat) :
    dtoiLoop rest n i = some (n, i, rest) := by
  cases rest with
  | nil => rfl
  | cons c cs =>
    have hc : isDec c = false := h c (by simp)
    simp [dtoiLoop, hc]

theorem dtoi_uitoa (v : Nat) (h : v < 256) (rest : List Char) (hr : endsDec rest) :
    dtoi (uitoa v ++ rest) = some (v, rest) := by
  rw [uitoa_byte v h]
  have hb : ¬ (16777215 : Nat) ≤ v := by omega
  by_cases h1 : v < 10
  · simp only [h1, if_true, dtoi, List.cons_append, List.nil_append]
    rw [dtoiLoop_digit v h1, dtoiLoop_end rest hr]
    simp [big, hb]
  · by_cases h2 : v < 100
    · simp only [h1, h2, if_true, if_false, dtoi, List.cons_append, List.nil_append]
      rw [dtoiLoop_digit _ (by omega), if_neg (by simp [big]; omega),
        dtoiLoop_digit _ (by omega), if_neg (by simp [big]; omega), dtoiLoop_end rest hr]
      simp
      omega
    · simp only [h1, h2, if_false, dtoi, List.cons_append, List.nil_append]
      rw [dtoiLoop_digit _ (by omega), if_neg (by simp [big]; omega),
        dtoiLoop_digit _ (by omega), if_neg (by simp [big]; omega),
        dtoiLoop_digit _ (by omega), if_neg (by simp [big]; omega), dtoiLoop_end rest hr]
      simp
      omega

theorem uitoa_chars (v : Nat) (h : v < 256) :
    ∃ c cs, uitoa v = c :: cs ∧ ∀ x ∈ c :: cs, x ≠ '.' ∧ x ≠ ':' := by
  rw [uitoa_byte v h]
  have d := fun k (hk : k < 10) => (decDigit_spec k hk).2.2
  by_cases h1 : v < 10
  · refine ⟨decDigit v, [], by simp [h1], ?_⟩
    intro x hx
    simp only [List.mem_singleton] at hx
    subst hx
    exact d v h1
  · by_cases h2 : v < 100
    · refine ⟨decDigit (v / 10), [decDigit (v % 10)], by simp [h1, h2], ?_⟩
      intro x hx
      simp only [List.mem_cons, List.mem_singleton, List.not_mem_nil, or_false] at hx
      rcases hx with rfl | rfl
      · exact d _ (by omega)
      · exact d _ (by omega)
    · refine ⟨decDigit (v / 100), [decDigit (v / 10 % 10), decDigit (v % 10)],
        by simp [h1, h2], ?_⟩
      intro x hx
      simp only [List.mem_cons, List.mem_singleton, List.not_mem_nil, or_false] at hx
      rcases hx with rfl | rfl | rfl
      · exact d _ (by omega)
      · exact d _ (by omega)
      · exact d _ (by omega)

theorem appendHex_eq (dst : List Char) (g : Nat) (h : g < 65536) :
    appendHex dst g = dst ++ hexStr g := by
  by_cases h0 : g = 0
  · simp [appendHex, hexStr, h0]
  · have e7 : g / 16 ^ 7 = 0 := by norm_num; omega
    have e6 : g / 16 ^ 6 = 0 := by norm_num; omega
    have e5 : g / 16 ^ 5 = 0 := by norm_num; omega
    have e4 : g / 16 ^ 4 = 0 := by norm_num; omega
    have e3 : g / 16 ^ 3 = g / 4096 := by norm_num
    have e2 : g / 16 ^ 2 = g / 256 := by norm_num
    have e1 : g / 16 ^ 1 = g / 16 := by norm_num
    have e0 : g / 16 ^ 0 = g := by norm_num
    have hpos : g > 0 := by omega
    simp only [appendHex, h0, if_false, appendHexLoop, e7, e6, e5, e4, e3, e2, e1, e0,
      gt_iff_lt, lt_self_iff_false, hexStr, hpos, if_true]
    by_cases c3 : 0 < g / 4096 <;> by_cases c2 : 0 < g / 256 <;> by_cases c1 : 0 < g / 16 <;>
      simp [c3, c2, c1]

theorem xtoiLoop_end (rest : List Char) (h : endsHex rest) (n i : Nat) :
    xtoiLoop rest n i = some (n, i, rest) := by
  rcases h with rfl | ⟨r, rfl⟩
  · rfl
  · have a1 : isDec ':' = false := by decide
    have a2 : isLowerHex ':' = false := by decide
    have a3 : isUpperHex ':' = false := by decide
    simp [xtoiLoop, a1, a2, a3]

theorem xtoi_hexStr (g : Nat) (h : g < 65536) (rest : List Char) (hr : endsHex rest) :
    xtoi (hexStr g ++ rest) = some (g, rest) := by
  unfold hexStr xtoi
  by_cases h0 : g = 0
  · subst h0
    have : xtoiLoop ('0' :: rest) 0 0 =
        if 0 * 16 + 0 ≥ big then none else xtoiLoop rest (0 * 16 + 0) (0 + 1) :=
      xtoiLoop_digit 0 (by omega) rest 0 0
    simp only [if_true, List.cons_append, List.nil_append]
    rw [this, xtoiLoop_end rest hr]
    simp [big]
  · simp only [h0, if_false]
    by_cases c3 : 0 < g / 4096
    · have c2 : 0 < g / 256 := by omega
      have c1 : 0 < g / 16 := by omega
      simp only [gt_iff_lt, c3, c2, c1, if_true, List.cons_append, List.nil_append]
      rw [xtoiLoop_digit _ (by omega), if_neg (by simp [big]; omega),
        xtoiLoop_digit _ (by omega), if_neg (by simp [big]; omega),
        xtoiLoop_digit _ (by omega), if_neg (by simp [big]; omega),
        xtoiLoop_digit _ (by omega), if_neg (by simp [big]; omega), xtoiLoop_end rest hr]
      simp
      omega
    · by_cases c2 : 0 < g / 256
      · have c1 : 0 < g / 16 := by omega
        simp only [gt_iff_lt, c3, c2, c1, if_true, if_false, List.cons_append, List.nil_append]
        rw [xtoiLoop_digit _ (by omega), if_neg (by simp [big]; omega),
          xtoiLoop_digit _ (by omega), if_neg (by simp [big]; omega),
          xtoiLoop_digit _ (by omega), if_neg (by simp [big]; omega), xtoiLoop_end rest hr]
        simp
        omega
      · by_cases c1 : 0 < g / 16
        · simp only [gt_iff_lt, c3, c2, c1, if_true, if_false, List.cons_append,
            List.nil_append]
          rw [xtoiLoop_digit _ (by omega), if_neg (by simp [big]; omega),
            xtoiLoop_digit _ (by omega), if_neg (by simp [big]; omega), xtoiLoop_end rest hr]
          simp
          omega
        · simp only [gt_iff_lt, c3, c2, c1, if_false, List.cons_append, List.nil_append]
          rw [xtoiLoop_digit _ (by omega), if_neg (by simp [big]; omega), xtoiLoop_end rest hr]
          simp
          omega

theorem hexDigit_mod_ne (k : Nat) : hexDigit (k % 16) ≠ '.' ∧ hexDigit (k % 16) ≠ ':' :=
  ⟨(hexDigit_spec _ (Nat.mod_lt _ (by omega))).1, (hexDigit_spec _ (Nat.mod_lt _ (by omega))).2.1⟩

theorem mem_optDigit (c : Prop) [Decidable c] (k : Nat) (x : Char)
    (h : x ∈ (if c then [hexDigit (k % 16)] else [])) : x ≠ '.' ∧ x ≠ ':' := by
  split_ifs at h
  · simp only [List.mem_singleton] at h
    subst h
    exact hexDigit_mod_ne k
  · simp at h

theorem hexStr_chars (g : Nat) :
    ∃ c cs, hexStr g = c :: cs ∧ ∀ x ∈ c :: cs, x ≠ '.' ∧ x ≠ ':' := by
  have hall : ∀ x ∈ hexStr g, x ≠ '.' ∧ x ≠ ':' := by
    intro x hx
    unfold hexStr at hx
    by_cases h0 : g = 0
    · simp only [h0, if_true, List.mem_singleton] at hx
      subst hx
      decide
    · simp only [h0, if_false, List.mem_append] at hx
      rcases hx with ((hx | hx) | hx) | hx
      · exact mem_optDigit _ _ _ hx
      · exact mem_optDigit _ _ _ hx
      · exact mem_optDigit _ _ _ hx
      · simp only [List.mem_singleton] at hx
        subst hx
        exact hexDigit_mod_ne g
  have hne : hexStr g ≠ [] := by
    unfold hexStr
    split_ifs <;> simp
  cases hs : hexStr g with
  | nil => exact absurd hs hne
  | cons c cs =>
    rw [hs] at hall
    exact ⟨c, cs, rfl, hall⟩

theorem getD_lt (p : IP) (hv : ∀ b ∈ p, b < 256) (i : Nat) : p.getD i 0 < 256 := by
  by_cases h : i < p.length
  · rw [List.getD_eq_getElem _ _ h]
    exact hv _ (List.getElem_mem h)
  · rw [List.getD_eq_default _ _ (by omega)]
    omega

theorem group_lt (p : IP) (hv : ∀ b ∈ p, b < 256) (i : Nat) : group p i < 65536 := by
  have h1 := getD_lt p hv i
  have h2 := getD_lt p hv (i + 1)
  unfold group
  omega

theorem group_bytes (p : IP) (hv : ∀ b ∈ p, b < 256) (i : Nat) :
    group p i / 256 = p.getD i 0 ∧ group p i % 256 = p.getD (i + 1) 0 := by
  have h1 := getD_lt p hv i
  have h2 := getD_lt p hv (i + 1)
  unfold group
  omega

theorem drop_two (p : IP) (i : Nat) (h : i + 2 ≤ p.length) :
    p.drop i = p.getD i 0 :: p.getD (i + 1) 0 :: p.drop (i + 2) := by
  rw [List.getD_eq_getElem _ _ (by omega), List.getD_eq_getElem _ _ (by omega)]
  rw [List.drop_eq_getElem_cons (by omega), List.drop_eq_getElem_cons (by omega)]

theorem printGroups_append (p : IP) (hv : ∀ b ∈ p, b < 256) (e0 e1 : Int) (fuel i : Nat)
    (b : List Char) :
    printGroups p e0 e1 fuel i b = b ++ printGroups p e0 e1 fuel i [] := by
  induction fuel generalizing i b with
  | zero => simp [printGroups]
  | succ f ih =>
    simp only [printGroups]
    by_cases h1 : i < IPv6len
    · simp only [h1, not_true_eq_false, if_false]
      by_cases h2 : (i : Int) = e0
      · simp only [h2, if_true]
        by_cases h3 : e1.toNat ≥ IPv6len
        · simp [h3]
        · simp only [h3, if_false]
          rw [ih, ih _ (appendHex _ _)]
          have := group_lt p hv e1.toNat
          unfold group at this
          rw [appendHex_eq _ _ this, appendHex_eq _ _ this]
          simp
      · simp only [h2, if_false]
        rw [ih, ih _ (appendHex _ _)]
        have := group_lt p hv i
        unfold group at this
        rw [appendHex_eq _ _ this, appendHex_eq _ _ this]
        by_cases h4 : i > 0 <;> simp [h4]
    · simp [h1]

theorem printGroups_done (p : IP) (e0 e1 : Int) (fuel i : Nat) (h : 16 ≤ i) :
    printGroups p e0 e1 fuel i [] = [] := by
  cases fuel with
  | zero => rfl
  | succ f =>
    have : ¬ i < IPv6len := by simp [IPv6len]; omega
    simp [printGroups, this]

theorem printGroups_plain (p : IP) (hv : ∀ b ∈ p, b < 256) (e0 e1 : Int) (fuel i : Nat)
    (h : i < 16) (hne : (i : Int) ≠ e0) :
    printGroups p e0 e1 (fuel + 1) i [] =
      (if i > 0 then [':'] else []) ++ hexStr (group p i) ++
        printGroups p e0 e1 fuel (i + 2) [] := by
  have h1 : i < IPv6len := h
  simp only [printGroups, h1, not_true_eq_false, if_false, hne]
  have hg := group_lt p hv i
  unfold group at hg ⊢
  rw [printGroups_append p hv, appendHex_eq _ _ hg]
  by_cases h4 : i > 0 <;> simp [h4]

theorem printGroups_ellipsis (p : IP) (hv : ∀ b ∈ p, b < 256) (a b : Nat) (fuel : Nat)
    (h : a < 16) :
    printGroups p (a : Int) (b : Int) (fuel + 1) a [] =
      ':' :: ':' :: (if b ≥ 16 then [] else
        hexStr (group p b) ++ printGroups p (a : Int) (b : Int) fuel (b + 2) []) := by
  have h1 : a < IPv6len := h
  simp only [printGroups, h1, not_true_eq_false, if_false, if_true, Int.toNat_ofNat]
  by_cases h3 : b ≥ 16
  · have : b ≥ IPv6len := h3
    simp [h3, this]
  · have : ¬ b ≥ IPv6len := h3
    simp only [h3, this, if_false]
    have hg := group_lt p hv b
    unfold group at hg ⊢
    rw [printGroups_append p hv, appendHex_eq _ _ hg]
    simp

theorem loop_step_end (pfuel : Nat) (s : List Char) (acc : List Nat) (ell : Option Nat)
    (g : Nat) (hx : xtoi s = some (g, [])) (hg : g < 65536) (hacc : acc.length < 16) :
    parseIPv6Loop (pfuel + 1) s acc ell = some ([], acc ++ [g / 256, g % 256], ell) := by
  have h1 : acc.length < IPv6len := hacc
  have h2 : ¬ g > 65535 := by omega
  simp [parseIPv6Loop, h1, hx, h2]

theorem loop_step_colon (pfuel : Nat) (s : List Char) (acc : List Nat) (ell : Option Nat)
    (g : Nat) (c : Char) (tail : List Char) (hx : xtoi s = some (g, ':' :: c :: tail))
    (hg : g < 65536) (hc : c ≠ ':') (hacc : acc.length < 16) :
    parseIPv6Loop (pfuel + 1) s acc ell =
      parseIPv6Loop pfuel (c :: tail) (acc ++ [g / 256, g % 256]) ell := by
  have h1 : acc.length < IPv6len := hacc
  have h2 : ¬ g > 65535 := by omega
  simp only [parseIPv6Loop, h1, not_true_eq_false, if_false, hx, h2, List.head?_cons,
    Option.some.injEq]
  have h3 : ¬ (':' = '.') := by decide
  simp only [h3, if_false, ne_eq, not_true_eq_false, false_or, reduceCtorEq]
  split
  · rename_i heq
    simp only [List.cons.injEq] at heq
    exact absurd heq.1 hc
  · rfl

theorem loop_step_ell_end (pfuel : Nat) (s : List Char) (acc : List Nat)
    (g : Nat) (hx : xtoi s = some (g, [':', ':']))
    (hg : g < 65536) (hacc : acc.length < 16) :
    parseIPv6Loop (pfuel + 1) s acc none =
      some ([], acc ++ [g / 256, g % 256], some (acc.length + 2)) := by
  have h1 : acc.length < IPv6len := hacc
  have h2 : ¬ g > 65535 := by omega
  have h3 : ¬ (':' = '.') := by decide
  simp [parseIPv6Loop, h1, hx, h2, h3]

theorem loop_step_ell (pfuel : Nat) (s : List Char) (acc : List Nat)
    (g : Nat) (c : Char) (tail : List Char) (hx : xtoi s = some (g, ':' :: ':' :: c :: tail))
    (hg : g < 65536) (hacc : acc.length < 16) :
    parseIPv6Loop (pfuel + 1) s acc none =
      parseIPv6Loop pfuel (c :: tail) (acc ++ [g / 256, g % 256]) (some (acc.length + 2)) := by
  have h1 : acc.length < IPv6len := hacc
  have h2 : ¬ g > 65535 := by omega
  have h3 : ¬ (':' = '.') := by decide
  simp [parseIPv6Loop, h1, hx, h2, h3]

theorem acc_two (p : IP) (hv : ∀ b ∈ p, b < 256) (i : Nat) (h : i + 2 ≤ p.length)
    (acc : List Nat) :
    acc ++ [group p i / 256, group p i % 256] ++ p.drop (i + 2) = acc ++ p.drop i := by
  rw [drop_two p i h, (group_bytes p hv i).1, (group_bytes p hv i).2]
  simp

/-- Parsing the groups printed from index `i` on, when no ellipsis is ahead. -/
theorem parse_tail (p : IP) (hp : validIP p) (e0 e1 : Int) (k : Nat) :
    ∀ (i fuel pfuel : Nat) (acc : List Nat) (ell : Option Nat),
      i + 2 * (k + 1) = 16 → e0 ≤ (i : Int) → k ≤ fuel → k + 1 ≤ pfuel → acc.length ≤ i →
      parseIPv6Loop pfuel (hexStr (group p i) ++ printGroups p e0 e1 fuel (i + 2) []) acc ell =
        some ([], acc ++ p.drop i, ell) := by
  obtain ⟨hlen, hv⟩ := hp
  induction k with
  | zero =>
    intro i fuel pfuel acc ell hi he hf hpf hacc
    obtain ⟨pf, rfl⟩ : ∃ pf, pfuel = pf + 1 := ⟨pfuel - 1, by omega⟩
    rw [printGroups_done p e0 e1 fuel (i + 2) (by omega)]
    rw [loop_step_end pf _ acc ell (group p i)
      (xtoi_hexStr _ (group_lt p hv i) [] (Or.inl rfl)) (group_lt p hv i) (by omega)]
    have hd : p.drop (i + 2) = [] := List.drop_eq_nil_of_le (by omega)
    have := acc_two p hv i (by omega) acc
    rw [hd, List.append_nil] at this
    rw [this]
  | succ k ih =>
    intro i fuel pfuel acc ell hi he hf hpf hacc
    obtain ⟨pf, rfl⟩ : ∃ pf, pfuel = pf + 1 := ⟨pfuel - 1, by omega⟩
    obtain ⟨f, rfl⟩ : ∃ f, fuel = f + 1 := ⟨fuel - 1, by omega⟩
    rw [printGroups_plain p hv e0 e1 f (i + 2) (by omega) (by omega)]
    obtain ⟨c, cs, hcs, hcc⟩ := hexStr_chars (group p (i + 2))
    have hc : c ≠ ':' := (hcc c (List.mem_cons_self _ _)).2
    have hpos : i + 2 > 0 := by omega
    simp only [hpos, if_true, List.append_assoc, List.singleton_append]
    rw [hcs]
    simp only [List.cons_append]
    rw [loop_step_colon pf _ acc ell (group p i) c _
      (xtoi_hexStr _ (group_lt p hv i) _ (Or.inr ⟨_, rfl⟩)) (group_lt p hv i) hc (by omega)]
    rw [← List.cons_append, ← hcs]
    rw [ih (i + 2) f pf _ ell (by omega) (by omega) (by omega) (by omega)
      (by simp; omega)]
    rw [acc_two p hv i (by omega) acc]

/-- Parsing the groups printed from index `i` on, when the ellipsis `a`, `b`
is ahead. -/
theorem parse_head (p : IP) (hp : validIP p) (a b : Nat) (hab : a + 4 ≤ b) (hb : b ≤ 16)
    (hbe : b % 2 = 0) (m : Nat) :
    ∀ (i fuel pfuel : Nat) (acc : List Nat),
      i + 2 * (m + 1) = a → 14 ≤ fuel * 2 + i → 16 ≤ pfuel * 2 + i → acc.length = i →
      parseIPv6Loop pfuel
          (hexStr (group p i) ++ printGroups p (a : Int) (b : Int) fuel (i + 2) []) acc none =
        some ([], acc ++ (p.drop i).take (a - i) ++ p.drop b, some a) := by
  have hp0 := hp
  obtain ⟨hlen, hv⟩ := hp
  induction m with
  | zero =>
    intro i fuel pfuel acc hi hf hpf hacc
    obtain ⟨pf, rfl⟩ : ∃ pf, pfuel = pf + 1 := ⟨pfuel - 1, by omega⟩
    obtain ⟨f, rfl⟩ : ∃ f, fuel = f + 1 := ⟨fuel - 1, by omega⟩
    have hia : i + 2 = a := by omega
    rw [hia, printGroups_ellipsis p hv a b f (by omega)]
    have htake : acc ++ [group p i / 256, group p i % 256] = acc ++ (p.drop i).take (a - i) := by
      rw [drop_two p i (by omega), (group_bytes p hv i).1, (group_bytes p hv i).2]
      have : a - i = 2 := by omega
      rw [this]
      simp
    by_cases hb16 : b ≥ 16
    · simp only [hb16, if_true]
      rw [loop_step_ell_end pf _ acc (group p i)
        (xtoi_hexStr _ (group_lt p hv i) _ (Or.inr ⟨_, rfl⟩)) (group_lt p hv i) (by omega)]
      have hd : p.drop b = [] := List.drop_eq_nil_of_le (by omega)
      rw [htake, hd, List.append_nil, hacc, hia]
    · simp only [hb16, if_false]
      obtain ⟨c, cs, hcs, hcc⟩ := hexStr_chars (group p b)
      rw [hcs]
      simp only [List.cons_append]
      rw [loop_step_ell pf _ acc (group p i) c _
        (xtoi_hexStr _ (group_lt p hv i) _ (Or.inr ⟨_, rfl⟩)) (group_lt p hv i) (by omega)]
      rw [← List.cons_append, ← hcs]
      obtain ⟨k, hk⟩ : ∃ k, b + 2 * (k + 1) = 16 := ⟨(16 - b) / 2 - 1, by omega⟩
      rw [parse_tail p hp0 (a : Int) (b : Int) k b f pf _ _ hk (by omega) (by omega) (by omega)
        (by simp; omega)]
      rw [htake, hacc, hia]
  | succ m ih =>
    intro i fuel pfuel acc hi hf hpf hacc
    obtain ⟨pf, rfl⟩ : ∃ pf, pfuel = pf + 1 := ⟨pfuel - 1, by omega⟩
    obtain ⟨f, rfl⟩ : ∃ f, fuel = f + 1 := ⟨fuel - 1, by omega⟩
    rw [printGroups_plain p hv _ _ f (i + 2) (by omega) (by omega)]
    obtain ⟨c, cs, hcs, hcc⟩ := hexStr_chars (group p (i + 2))
    have hc : c ≠ ':' := (hcc c (List.mem_cons_self _ _)).2
    have hpos : i + 2 > 0 := by omega
    simp only [hpos, if_true, List.append_assoc, List.singleton_append]
    rw [hcs]
    simp only [List.cons_append]
    rw [loop_step_colon pf _ acc none (group p i) c _
      (xtoi_hexStr _ (group_lt p hv i) _ (Or.inr ⟨_, rfl⟩)) (group_lt p hv i) hc (by omega)]
    rw [← List.cons_append, ← hcs]
    rw [ih (i + 2) f pf _ (by omega) (by omega) (by omega) (by simp; omega)]
    have : (p.drop i).take (a - i) =
        [group p i / 256, group p i % 256] ++ (p.drop (i + 2)).take (a - (i + 2)) := by
      rw [drop_two p i (by omega), (group_bytes p hv i).1, (group_bytes p hv i).2]
      have : a - i = (a - (i + 2)) + 2 := by omega
      rw [this]
      simp
    rw [this]
    simp

theorem zeroRunEnd_spec (p : IP) (fuel : Nat) :
    ∀ j, j % 2 = 0 → j ≤ 16 →
      j ≤ zeroRunEnd p fuel j ∧ zeroRunEnd p fuel j ≤ 16 ∧ zeroRunEnd p fuel j % 2 = 0 ∧
        zerosOn p j (zeroRunEnd p fuel j) := by
  induction fuel with
  | zero =>
    intro j h1 h2
    exact ⟨le_refl _, h2, h1, fun t ht1 ht2 => by simp only [zeroRunEnd] at ht2; omega⟩
  | succ f ih =>
    intro j h1 h2
    simp only [zeroRunEnd]
    by_cases hc : j < IPv6len ∧ p.getD j 0 = 0 ∧ p.getD (j + 1) 0 = 0
    · rw [if_pos hc]
      have hj : j < 16 := hc.1
      obtain ⟨a1, a2, a3, a4⟩ := ih (j + 2) (by omega) (by omega)
      refine ⟨by omega, a2, a3, ?_⟩
      intro t ht1 ht2
      by_cases e1 : t = j
      · rw [e1]; exact hc.2.1
      · by_cases e2 : t = j + 1
        · rw [e2]; exact hc.2.2
        · exact a4 t (by omega) ht2
    · rw [if_neg hc]
      exact ⟨le_refl _, h2, h1, fun t ht1 ht2 => by omega⟩

theorem longestZeroRun_good (p : IP) (fuel : Nat) :
    ∀ (i : Nat) (e0 e1 : Int), i % 2 = 0 → goodRun p e0 e1 →
      goodRun p (longestZeroRun p fuel i e0 e1).1 (longestZeroRun p fuel i e0 e1).2 := by
  induction fuel with
  | zero =>
    intro i e0 e1 _ hg
    exact hg
  | succ f ih =>
    intro i e0 e1 hi hg
    simp only [longestZeroRun]
    by_cases h1 : i < IPv6len
    · simp only [h1, not_true_eq_false, if_false]
      have hi16 : i < 16 := h1
      obtain ⟨a1, a2, a3, a4⟩ := zeroRunEnd_spec p 8 i hi (by omega)
      by_cases h2 : zeroRunEnd p 8 i > i ∧ (zeroRunEnd p 8 i : Int) - i > e1 - e0
      · rw [if_pos h2]
        exact ih _ _ _ (by omega) (Or.inr ⟨i, zeroRunEnd p 8 i, rfl, rfl, h2.1, a2, hi, a3, a4⟩)
      · rw [if_neg h2]
        exact ih _ _ _ (by omega) hg
    · simp only [h1, not_false_eq_true, if_true]
      exact hg

theorem take_zeros (l : List Nat) (n : Nat) (hn : n ≤ l.length)
    (h : ∀ t, t < n → l.getD t 0 = 0) : l.take n = List.replicate n 0 := by
  induction n generalizing l with
  | zero => simp
  | succ m ih =>
    cases l with
    | nil => simp at hn
    | cons x xs =>
      have hx : x = 0 := by simpa using h 0 (by omega)
      have := ih xs (by simpa using hn) (fun t ht => by simpa using h (t + 1) (by omega))
      simp [List.replicate_succ, hx, this]

theorem getD_drop (l : List Nat) (a t : Nat) : (l.drop a).getD t 0 = l.getD (a + t) 0 := by
  simp [List.getD_eq_getElem?_getD, List.getElem?_drop]

theorem fill_zeros (p : IP) (a b : Nat) (hab : a ≤ b) (hb : b ≤ p.length)
    (hz : zerosOn p a b) : p.take a ++ List.replicate (b - a) 0 ++ p.drop b = p := by
  have h1 : (p.drop a).take (b - a) = List.replicate (b - a) 0 := by
    apply take_zeros
    · simp; omega
    · intro t ht
      rw [getD_drop]
      exact hz _ (by omega) (by omega)
  have h2 : (p.drop a).drop (b - a) = p.drop b := by
    rw [List.drop_drop]
    congr 1
    omega
  calc p.take a ++ List.replicate (b - a) 0 ++ p.drop b
      = p.take a ++ ((p.drop a).take (b - a) ++ (p.drop a).drop (b - a)) := by
        rw [h1, h2, List.append_assoc]
    _ = p.take a ++ p.drop a := by rw [List.take_append_drop]
    _ = p := List.take_append_drop _ _

theorem parseIPScan_colon (s ds r : List Char) (h : ∀ x ∈ ds, x ≠ '.' ∧ x ≠ ':') :
    parseIPScan s (ds ++ ':' :: r) = parseIPv6 s := by
  induction ds with
  | nil =>
    have : ¬ (':' = '.') := by decide
    simp [parseIPScan, this]
  | cons d ds ih =>
    have hd := h d (List.mem_cons_self _ _)
    simp only [List.cons_append, parseIPScan, hd.1, hd.2, if_false]
    exact ih (fun x hx => h x (List.mem_cons_of_mem _ hx))

theorem parseIPScan_dot (s ds r : List Char) (h : ∀ x ∈ ds, x ≠ '.' ∧ x ≠ ':') :
    parseIPScan s (ds ++ '.' :: r) = parseIPv4 s := by
  induction ds with
  | nil => simp [parseIPScan]
  | cons d ds ih =>
    have hd := h d (List.mem_cons_self _ _)
    simp only [List.cons_append, parseIPScan, hd.1, hd.2, if_false]
    exact ih (fun x hx => h x (List.mem_cons_of_mem _ hx))

theorem parseIPv6_plain (c : Char) (cs : List Char) (hc : c ≠ ':') :
    parseIPv6 (c :: cs) = parseIPv6Finish (parseIPv6Loop 8 (c :: cs) [] none) := by
  unfold parseIPv6
  split
  · rename_i heq
    simp only [List.cons.injEq] at heq
    exact absurd heq.1 hc
  · rename_i heq
    simp only [List.cons.injEq] at heq
    exact absurd heq.1 hc
  · rfl

theorem parseIPv6_ellipsis (c : Char) (cs : List Char) :
    parseIPv6 (':' :: ':' :: c :: cs) =
      parseIPv6Finish (parseIPv6Loop 8 (c :: cs) [] (some 0)) := by
  unfold parseIPv6
  split
  · rename_i heq
    simp at heq
  · rename_i heq
    simp only [List.cons.injEq, true_and] at heq
    rw [heq]
  · rename_i h1 h2
    exact absurd rfl (h2 (c :: cs))

theorem v6_roundtrip_none (p : IP) (hp : validIP p) (e1 : Int) :
    parseIPScan (printGroups p (-1) e1 8 0 []) (printGroups p (-1) e1 8 0 []) = some p := by
  have hv := hp.2
  have hlen := hp.1
  have hs : printGroups p (-1) e1 8 0 [] =
      hexStr (group p 0) ++ printGroups p (-1) e1 7 2 [] := by
    rw [printGroups_plain p hv (-1) e1 7 0 (by omega) (by omega)]
    simp
  have ht : printGroups p (-1) e1 7 2 [] =
      ':' :: (hexStr (group p 2) ++ printGroups p (-1) e1 6 4 []) := by
    rw [printGroups_plain p hv (-1) e1 6 2 (by omega) (by omega)]
    simp
  obtain ⟨c, cs, hcs, hcc⟩ := hexStr_chars (group p 0)
  have hscan : parseIPScan (printGroups p (-1) e1 8 0 []) (printGroups p (-1) e1 8 0 []) =
      parseIPv6 (printGroups p (-1) e1 8 0 []) := by
    conv_lhs => arg 2; rw [hs, ht, hcs]
    exact parseIPScan_colon _ _ _ hcc
  rw [hscan, hs]
  have hloop := parse_tail p hp (-1) e1 7 0 7 8 [] none (by omega) (by omega) (by omega)
    (by omega) (by simp)
  simp only [Nat.zero_add, List.nil_append, List.drop_zero] at hloop
  have hc : c ≠ ':' := (hcc c (List.mem_cons_self _ _)).2
  have hform : hexStr (group p 0) ++ printGroups p (-1) e1 7 2 [] =
      c :: (cs ++ printGroups p (-1) e1 7 2 []) := by
    rw [hcs, List.cons_append]
  rw [hform, parseIPv6_plain _ _ hc, ← hform, hloop]
  have : ¬ p.length < IPv6len := by simp [IPv6len, hlen]
  simp [parseIPv6Finish, this]

theorem v6_roundtrip_run (p : IP) (hp : validIP p) (a b : Nat) (hab : a + 4 ≤ b)
    (hb : b ≤ 16) (hae : a % 2 = 0) (hbe : b % 2 = 0) (hz : zerosOn p a b) :
    parseIPScan (printGroups p (a : Int) (b : Int) 8 0 [])
      (printGroups p (a : Int) (b : Int) 8 0 []) = some p := by
  have hv := hp.2
  have hlen := hp.1
  by_cases ha0 : a = 0
  · subst ha0
    have hs := printGroups_ellipsis p hv 0 b 7 (by omega)
    have hscan : parseIPScan (printGroups p ((0 : Nat) : Int) (b : Int) 8 0 [])
        (printGroups p ((0 : Nat) : Int) (b : Int) 8 0 []) =
        parseIPv6 (printGroups p ((0 : Nat) : Int) (b : Int) 8 0 []) := by
      conv_lhs => arg 2; rw [hs]
      exact parseIPScan_colon _ [] _ (by simp)
    rw [hscan, hs]
    by_cases hb16 : b ≥ 16
    · simp only [hb16, if_true]
      have hb' : b = 16 := by omega
      subst hb'
      have := take_zeros p 16 (by omega) (fun t ht => hz t (by omega) ht)
      rw [List.take_of_length_le (by omega)] at this
      rw [this]
      rfl
    · simp only [hb16, if_false]
      obtain ⟨c, cs, hcs, hcc⟩ := hexStr_chars (group p b)
      have hform : hexStr (group p b) ++ printGroups p ((0 : Nat) : Int) (b : Int) 7 (b + 2) [] =
          c :: (cs ++ printGroups p ((0 : Nat) : Int) (b : Int) 7 (b + 2) []) := by
        rw [hcs, List.cons_append]
      obtain ⟨k, hk⟩ : ∃ k, b + 2 * (k + 1) = 16 := ⟨(16 - b) / 2 - 1, by omega⟩
      have hloop := parse_tail p hp ((0 : Nat) : Int) (b : Int) k b 7 8 [] (some 0) hk
        (by omega) (by omega) (by omega) (by simp)
      rw [hform, parseIPv6_ellipsis, ← hform, hloop]
      have hl : (p.drop b).length < IPv6len := by simp [IPv6len, hlen]; omega
      simp only [List.nil_append, parseIPv6Finish, ne_eq, not_true_eq_false, if_false, hl,
        if_true, List.take_zero, List.drop_zero, List.length_drop, hlen, IPv6len]
      have h16 : 16 - (16 - b) = b - 0 := by omega
      rw [h16]
      have := fill_zeros p 0 b (by omega) (by omega) hz
      have hb0 : 0 < b := by omega
      simpa [hb0] using this
  · have hs : printGroups p (a : Int) (b : Int) 8 0 [] =
        hexStr (group p 0) ++ printGroups p (a : Int) (b : Int) 7 2 [] := by
      rw [printGroups_plain p hv _ _ 7 0 (by omega) (by omega)]
      simp
    have ht : ∃ r, printGroups p (a : Int) (b : Int) 7 2 [] = ':' :: r := by
      by_cases ha2 : a = 2
      · subst ha2
        exact ⟨_, printGroups_ellipsis p hv 2 b 6 (by omega)⟩
      · rw [printGroups_plain p hv _ _ 6 2 (by omega) (by omega)]
        exact ⟨hexStr (group p 2) ++ printGroups p (a : Int) (b : Int) 6 4 [], by simp⟩
    obtain ⟨r, hr⟩ := ht
    obtain ⟨c, cs, hcs, hcc⟩ := hexStr_chars (group p 0)
    have hscan : parseIPScan (printGroups p (a : Int) (b : Int) 8 0 [])
        (printGroups p (a : Int) (b : Int) 8 0 []) =
        parseIPv6 (printGroups p (a : Int) (b : Int) 8 0 []) := by
      conv_lhs => arg 2; rw [hs, hr, hcs]
      exact parseIPScan_colon _ _ _ hcc
    rw [hscan, hs]
    obtain ⟨m, hm⟩ : ∃ m, 0 + 2 * (m + 1) = a := ⟨a / 2 - 1, by omega⟩
    have hloop := parse_head p hp a b hab hb hbe m 0 7 8 [] hm (by omega) (by omega) (by simp)
    simp only [Nat.zero_add, List.nil_append, List.drop_zero, Nat.sub_zero] at hloop
    have hc : c ≠ ':' := (hcc c (List.mem_cons_self _ _)).2
    have hform : hexStr (group p 0) ++ printGroups p (a : Int) (b : Int) 7 2 [] =
        c :: (cs ++ printGroups p (a : Int) (b : Int) 7 2 []) := by
      rw [hcs, List.cons_append]
    rw [hform, parseIPv6_plain _ _ hc, ← hform, hloop]
    have hl : (p.take a ++ p.drop b).length < IPv6len := by
      simp [IPv6len, hlen]; omega
    have hl2 : (p.take a ++ p.drop b).length = a + (16 - b) := by
      simp [hlen]; omega
    have htk : (p.take a ++ p.drop b).take a = p.take a := by
      rw [List.take_append_of_le_length (by simp [hlen]; omega)]
      simp
    have hdr : (p.take a ++ p.drop b).drop a = p.drop b := by
      rw [List.drop_append_of_le_length (by simp [hlen]; omega)]
      simp [List.drop_take]
    simp only [parseIPv6Finish, ne_eq, not_true_eq_false, if_false, hl, if_true]
    rw [hl2, htk, hdr]
    have h16 : IPv6len - (a + (16 - b)) = b - a := by simp [IPv6len]; omega
    rw [h16, fill_zeros p a b (by omega) (by omega) hz]

theorem length16_cases (p : IP) (h : p.length = 16) :
    ∃ x0 x1 x2 x3 x4 x5 x6 x7 x8 x9 x10 x11 x12 x13 x14 x15 : Nat,
      p = [x0, x1, x2, x3, x4, x5, x6, x7, x8, x9, x10, x11, x12, x13, x14, x15] := by
  rcases p with _ | ⟨x0, p⟩
  · simp at h
  rcases p with _ | ⟨x1, p⟩
  · simp at h
  rcases p with _ | ⟨x2, p⟩
  · simp at h
  rcases p with _ | ⟨x3, p⟩
  · simp at h
  rcases p with _ | ⟨x4, p⟩
  · simp at h
  rcases p with _ | ⟨x5, p⟩
  · simp at h
  rcases p with _ | ⟨x6, p⟩
  · simp at h
  rcases p with _ | ⟨x7, p⟩
  · simp at h
  rcases p with _ | ⟨x8, p⟩
  · simp at h
  rcases p with _ | ⟨x9, p⟩
  · simp at h
  rcases p with _ | ⟨x10, p⟩
  · simp at h
  rcases p with _ | ⟨x11, p⟩
  · simp at h
  rcases p with _ | ⟨x12, p⟩
  · simp at h
  rcases p with _ | ⟨x13, p⟩
  · simp at h
  rcases p with _ | ⟨x14, p⟩
  · simp at h
  rcases p with _ | ⟨x15, p⟩
  · simp at h
  rcases p with _ | ⟨y, p⟩
  · exact ⟨x0, x1, x2, x3, x4, x5, x6, x7, x8, x9, x10, x11, x12, x13, x14, x15, rfl⟩
  · simp at h

theorem octets_first (k a : Nat) (rest : List Char) (ha : a < 256) (hr : endsDec rest) :
    parseIPv4Octets (k + 1) 0 (uitoa a ++ rest) =
      match parseIPv4Octets k 1 rest with
      | none => none
      | some (ps, r) => some (a :: ps, r) := by
  obtain ⟨c, cs, hcs, -⟩ := uitoa_chars a ha
  have hd := dtoi_uitoa a ha rest hr
  rw [hcs, List.cons_append] at hd ⊢
  have h255 : ¬ a > 255 := by omega
  simp [parseIPv4Octets, hd, h255]

theorem octets_next (k i a : Nat) (rest : List Char) (ha : a < 256) (hr : endsDec rest) :
    parseIPv4Octets (k + 1) (i + 1) ('.' :: (uitoa a ++ rest)) =
      match parseIPv4Octets k (i + 2) rest with
      | none => none
      | some (ps, r) => some (a :: ps, r) := by
  have hd := dtoi_uitoa a ha rest hr
  have h255 : ¬ a > 255 := by omega
  simp [parseIPv4Octets, hd, h255]

theorem endsDec_dot (r : List Char) : endsDec ('.' :: r) := by
  intro c hc
  simp only [List.head?_cons, Option.mem_def, Option.some.injEq] at hc
  subst hc
  decide

theorem v4_roundtrip (a b c d : Nat) (ha : a < 256) (hb : b < 256) (hc : c < 256)
    (hd : d < 256) :
    parseIPScan (uitoa a ++ '.' :: uitoa b ++ '.' :: uitoa c ++ '.' :: uitoa d)
      (uitoa a ++ '.' :: uitoa b ++ '.' :: uitoa c ++ '.' :: uitoa d) =
      some (IPv4 a b c d) := by
  have hform : uitoa a ++ '.' :: uitoa b ++ '.' :: uitoa c ++ '.' :: uitoa d =
      uitoa a ++ '.' :: (uitoa b ++ '.' :: (uitoa c ++ '.' :: (uitoa d ++ []))) := by
    simp
  rw [hform]
  obtain ⟨x, xs, hxs, hxx⟩ := uitoa_chars a ha
  have hscan : parseIPScan
      (uitoa a ++ '.' :: (uitoa b ++ '.' :: (uitoa c ++ '.' :: (uitoa d ++ []))))
      (uitoa a ++ '.' :: (uitoa b ++ '.' :: (uitoa c ++ '.' :: (uitoa d ++ [])))) =
      parseIPv4 (uitoa a ++ '.' :: (uitoa b ++ '.' :: (uitoa c ++ '.' :: (uitoa d ++ [])))) := by
    conv_lhs => arg 2; rw [hxs]
    exact parseIPScan_dot _ _ _ hxx
  rw [hscan]
  unfold parseIPv4 IPv4len
  rw [octets_first 3 a _ ha (endsDec_dot _), octets_next 2 0 b _ hb (endsDec_dot _),
    octets_next 1 1 c _ hc (endsDec_dot _),
    octets_next 0 2 d [] hd (by intro c hc; simp at hc)]
  simp [parseIPv4Octets]

/-- Rendering a 16-byte address and parsing the result gives the address
back. -/
theorem ipChars_roundtrip (p : IP) (hp : validIP p) :
    parseIPScan (ipChars p) (ipChars p) = some p := by
  have hlen := hp.1
  have hv := hp.2
  have hne : ¬ p.length = 0 := by omega
  have hlen6 : ¬ p.length ≠ IPv6len := by simp [IPv6len, hlen]
  by_cases h4 : (p.take 10).all (fun b => b == 0) ∧ p.getD 10 0 = 0xff ∧ p.getD 11 0 = 0xff
  · obtain ⟨x0, x1, x2, x3, x4, x5, x6, x7, x8, x9, x10, x11, x12, x13, x14, x15, rfl⟩ :=
      length16_cases p hlen
    simp only [List.take_succ_cons, List.take_zero, List.all_cons, List.all_nil, Bool.and_true,
      Bool.and_eq_true, beq_iff_eq, List.getD_cons_succ, List.getD_cons_zero] at h4
    obtain ⟨⟨rfl, rfl, rfl, rfl, rfl, rfl, rfl, rfl, rfl, rfl⟩, rfl, rfl⟩ := h4
    have hc : ipChars [0, 0, 0, 0, 0, 0, 0, 0, 0, 0, 0xff, 0xff, x12, x13, x14, x15] =
        uitoa x12 ++ '.' :: uitoa x13 ++ '.' :: uitoa x14 ++ '.' :: uitoa x15 := by
      simp [ipChars, To4, IPv4len, IPv6len]
    rw [hc]
    exact v4_roundtrip x12 x13 x14 x15 (hv _ (by simp)) (hv _ (by simp)) (hv _ (by simp))
      (hv _ (by simp))
  · have hTo4 : To4 p = none := by
      have : ¬ p.length = IPv4len := by simp [IPv4len, hlen]
      simp only [To4, this, if_false]
      rw [if_neg]
      rintro ⟨-, h⟩
      exact h4 h
    have hc : ipChars p =
        printGroups p
          (if (longestZeroRun p 8 0 (-1) (-1)).2 - (longestZeroRun p 8 0 (-1) (-1)).1 ≤ 2
            then ((-1 : Int), (-1 : Int)) else longestZeroRun p 8 0 (-1) (-1)).1
          (if (longestZeroRun p 8 0 (-1) (-1)).2 - (longestZeroRun p 8 0 (-1) (-1)).1 ≤ 2
            then ((-1 : Int), (-1 : Int)) else longestZeroRun p 8 0 (-1) (-1)).2 8 0 [] := by
      simp only [ipChars, hne, if_false, hTo4, hlen6]
    rw [hc]
    have hg := longestZeroRun_good p 8 0 (-1) (-1) (by omega) (Or.inl ⟨rfl, rfl⟩)
    by_cases hshort :
        (longestZeroRun p 8 0 (-1) (-1)).2 - (longestZeroRun p 8 0 (-1) (-1)).1 ≤ 2
    · simp only [hshort, if_true]
      exact v6_roundtrip_none p hp (-1)
    · simp only [hshort, if_false]
      rcases hg with ⟨h1, h2⟩ | ⟨a, b, h1, h2, h3, h5, h6, h7, h8⟩
      · rw [h1, h2] at hshort
        omega
      · rw [h1, h2] at hshort ⊢
        exact v6_roundtrip_run p hp a b (by omega) h5 h6 h7 h8

theorem parseIPv4Octets_valid (k : Nat) :
    ∀ (i : Nat) (s : List Char) (ps : List Nat) (r : List Char),
      parseIPv4Octets k i s = some (ps, r) → ∀ b ∈ ps, b < 256 := by
  induction k with
  | zero =>
    intro i s ps r h
    simp only [parseIPv4Octets, Option.some.injEq, Prod.mk.injEq] at h
    rw [← h.1]
    simp
  | succ k ih =>
    intro i s ps r h
    cases s with
    | nil => simp [parseIPv4Octets] at h
    | cons c cs =>
      simp only [parseIPv4Octets] at h
      generalize (if i > 0 then cs else c :: cs) = t at h
      by_cases h1 : i > 0 ∧ c ≠ '.'
      · rw [if_pos h1] at h
        simp at h
      · rw [if_neg h1] at h
        cases hd : dtoi t with
        | none => simp [hd] at h
        | some nr =>
          obtain ⟨n, rest⟩ := nr
          simp only [hd] at h
          by_cases h2 : n > 255
          · rw [if_pos h2] at h
            simp at h
          · rw [if_neg h2] at h
            cases hrec : parseIPv4Octets k (i + 1) rest with
            | none => simp [hrec] at h
            | some pr =>
              obtain ⟨ps1, r1⟩ := pr
              simp only [hrec, Option.some.injEq, Prod.mk.injEq] at h
              rw [← h.1]
              intro b hb
              rcases List.mem_cons.1 hb with rfl | hb
              · omega
              · exact ih _ _ _ _ hrec b hb

theorem parseIPv4_valid (s : List Char) (ip : IP) (h : parseIPv4 s = some ip) :
    validIP ip ∧ ip.drop 12 ≠ [] ∧ (ip.drop 12).length = 4 := by
  unfold parseIPv4 at h
  split at h
  · rename_i a b c d heq
    have hv := parseIPv4Octets_valid _ _ _ _ _ heq
    simp only [Option.some.injEq] at h
    subst h
    refine ⟨⟨rfl, ?_⟩, by simp [IPv4, v4InV6Prefix], by simp [IPv4, v4InV6Prefix]⟩
    intro x hx
    simp only [IPv4, v4InV6Prefix, List.cons_append, List.nil_append, List.mem_cons,
      List.not_mem_nil, or_false] at hx
    have ha := hv a (by simp)
    have hb := hv b (by simp)
    have hc := hv c (by simp)
    have hd := hv d (by simp)
    omega
  · simp at h

theorem loopInv_push (acc : List Nat) (ell : Option Nat) (n : Nat) (h : loopInv acc ell)
    (hn : ¬ n > 0xFFFF) (hl : acc.length < IPv6len) :
    loopInv (acc ++ [n / 256, n % 256]) ell ∧
    loopInv (acc ++ [n / 256, n % 256]) (some (acc ++ [n / 256, n % 256]).length) := by
  obtain ⟨h1, h2, h3, h4⟩ := h
  have hl' : acc.length < 16 := hl
  have hb : ∀ b ∈ acc ++ [n / 256, n % 256], b < 256 := by
    intro b hb
    simp only [List.mem_append, List.mem_cons, List.mem_singleton, List.not_mem_nil,
      or_false] at hb
    rcases hb with hb | rfl | rfl
    · exact h1 b hb
    · omega
    · omega
  have hlen : (acc ++ [n / 256, n % 256]).length = acc.length + 2 := by simp
  refine ⟨⟨hb, by omega, by omega, ?_⟩, ⟨hb, by omega, by omega, ?_⟩⟩
  · intro e he
    have := h4 e he
    omega
  · intro e he
    simp only [Option.some.injEq] at he
    omega

theorem parseIPv6Loop_inv (fuel : Nat) :
    ∀ (s : List Char) (acc : List Nat) (ell : Option Nat) (s1 : List Char) (acc1 : List Nat)
      (ell1 : Option Nat), loopInv acc ell →
      parseIPv6Loop fuel s acc ell = some (s1, acc1, ell1) → loopInv acc1 ell1 := by
  induction fuel with
  | zero =>
    intro s acc ell s1 acc1 ell1 hinv h
    simp only [parseIPv6Loop] at h
    split_ifs at h
    simp only [Option.some.injEq, Prod.mk.injEq] at h
    obtain ⟨-, rfl, rfl⟩ := h
    exact hinv
  | succ f ih =>
    intro s acc ell s1 acc1 ell1 hinv h
    rw [parseIPv6Loop] at h
    by_cases hl : acc.length < IPv6len
    · rw [if_neg (not_not.2 hl)] at h
      cases hx : xtoi s with
      | none => simp [hx] at h
      | some nr =>
        obtain ⟨n, rest⟩ := nr
        simp only [hx] at h
        by_cases hn : n > 0xFFFF
        · rw [if_pos hn] at h
          simp at h
        · rw [if_neg hn] at h
          obtain ⟨hp1, hp2⟩ := loopInv_push acc ell n hinv hn hl
          by_cases hdot : rest.head? = some '.'
          · rw [if_pos hdot] at h
            by_cases c1 : ell = none ∧ acc.length ≠ IPv6len - IPv4len
            · rw [if_pos c1] at h
              simp at h
            · rw [if_neg c1] at h
              by_cases c2 : acc.length + IPv4len > IPv6len
              · rw [if_pos c2] at h
                simp at h
              · rw [if_neg c2] at h
                cases h4 : parseIPv4 s with
                | none => simp [h4] at h
                | some ip4 =>
                  simp only [h4, Option.some.injEq, Prod.mk.injEq] at h
                  obtain ⟨-, rfl, rfl⟩ := h
                  obtain ⟨⟨-, hv4⟩, -, hl4⟩ := parseIPv4_valid s ip4 h4
                  obtain ⟨h1, h2, h3, h5⟩ := hinv
                  simp only [IPv4len, IPv6len] at c2
                  refine ⟨?_, ?_, ?_, ?_⟩
                  · intro b hb
                    rcases List.mem_append.1 hb with hb | hb
                    · exact h1 b hb
                    · exact hv4 b (List.mem_of_mem_drop hb)
                  · rw [List.length_append, hl4]
                    omega
                  · rw [List.length_append, hl4]
                    omega
                  · intro e he
                    have := h5 e he
                    rw [List.length_append, hl4]
                    omega
          · rw [if_neg hdot] at h
            cases rest with
            | nil =>
              simp only [Option.some.injEq, Prod.mk.injEq] at h
              obtain ⟨-, rfl, rfl⟩ := h
              exact hp1
            | cons c rest1 =>
              simp only at h
              by_cases c3 : c ≠ ':' ∨ rest1 = []
              · rw [if_pos c3] at h
                simp at h
              · rw [if_neg c3] at h
                split at h
                · by_cases c4 : ell ≠ none
                  · rw [if_pos c4] at h
                    simp at h
                  · rw [if_neg c4] at h
                    split_ifs at h
                    · simp only [Option.some.injEq, Prod.mk.injEq] at h
                      obtain ⟨-, rfl, rfl⟩ := h
                      exact hp2
                    · exact ih _ _ _ _ _ _ hp2 h
                · exact ih _ _ _ _ _ _ hp1 h
    · rw [if_pos hl] at h
      simp only [Option.some.injEq, Prod.mk.injEq] at h
      obtain ⟨-, rfl, rfl⟩ := h
      exact hinv

theorem parseIPv6Finish_valid (r : Option (List Char × List Nat × Option Nat)) (ip : IP)
    (hr : ∀ s acc ell, r = some (s, acc, ell) → loopInv acc ell)
    (h : parseIPv6Finish r = some ip) : validIP ip := by
  cases r with
  | none => simp [parseIPv6Finish] at h
  | some t =>
    obtain ⟨s, acc, ell⟩ := t
    obtain ⟨h1, h2, h3, h4⟩ := hr s acc ell rfl
    simp only [parseIPv6Finish] at h
    split_ifs at h with c1 c2 c3
    · cases ell with
      | none => simp at h
      | some e =>
        simp only [Option.some.injEq] at h
        subst h
        have he := h4 e rfl
        simp only [IPv6len] at c2 ⊢
        refine ⟨?_, ?_⟩
        · simp only [List.length_append, List.length_take, List.length_replicate,
            List.length_drop]
          omega
        · intro b hb
          simp only [List.mem_append, List.mem_replicate] at hb
          rcases hb with (hb | hb) | hb
          · exact h1 b (List.mem_of_mem_take hb)
          · omega
          · exact h1 b (List.mem_of_mem_drop hb)
    · simp only [Option.some.injEq] at h
      subst h
      simp only [IPv6len] at c2
      exact ⟨by omega, h1⟩

theorem parseIPv6_valid (s : List Char) (ip : IP) (h : parseIPv6 s = some ip) :
    validIP ip := by
  have h0 : loopInv [] none := ⟨by simp, by simp, by simp, by simp⟩
  have h1 : loopInv [] (some 0) := ⟨by simp, by simp, by simp, by simp⟩
  unfold parseIPv6 at h
  split at h
  · simp only [Option.some.injEq] at h
    subst h
    refine ⟨by simp [IPv6len], ?_⟩
    intro b hb
    simp only [List.mem_replicate] at hb
    omega
  · exact parseIPv6Finish_valid _ ip
      (fun s acc ell hr => parseIPv6Loop_inv 8 _ _ _ _ _ _ h1 hr) h
  · exact parseIPv6Finish_valid _ ip
      (fun s acc ell hr => parseIPv6Loop_inv 8 _ _ _ _ _ _ h0 hr) h

theorem parseIPScan_valid (s t : List Char) (ip : IP) (h : parseIPScan s t = some ip) :
    validIP ip := by
  induction t with
  | nil => simp [parseIPScan] at h
  | cons c cs ih =>
    simp only [parseIPScan] at h
    split_ifs at h
    · exact (parseIPv4_valid s ip h).1
    · exact parseIPv6_valid s ip h
    · exact ih h

/-- An address that `ParseIP` returns is a fixed point of rendering and
parsing. -/
theorem ParseIP_IPString (r : String) (ip : IP) (h : ParseIP r = some ip) :
    ParseIP (IPString ip) = some ip ∧ IPString ip ≠ "" := by
  have hv := parseIPScan_valid _ _ _ h
  have hrt := ipChars_roundtrip ip hv
  refine ⟨hrt, ?_⟩
  intro he
  have : ipChars ip = [] := by
    have := congrArg String.toList he
    simpa [IPString] using this
  rw [this] at hrt
  simp [parseIPScan] at hrt

/-! ## The strings `ParseIP` and `SplitHostPort` accept -/

theorem dtoiLoop_consumed (s : List Char) :
    ∀ (n i n1 i1 : Nat) (rest : List Char), dtoiLoop s n i = some (n1, i1, rest) →
      ∃ ds, s = ds ++ rest ∧ ∀ c ∈ ds, addrChar c := by
  induction s with
  | nil =>
    intro n i n1 i1 rest h
    simp only [dtoiLoop, Option.some.injEq, Prod.mk.injEq] at h
    exact ⟨[], by simp [h.2.2], by simp⟩
  | cons c cs ih =>
    intro n i n1 i1 rest h
    simp only [dtoiLoop] at h
    by_cases hc : isDec c = true
    · rw [if_pos hc] at h
      split_ifs at h
      obtain ⟨ds, h1, h2⟩ := ih _ _ _ _ _ h
      refine ⟨c :: ds, by rw [h1]; rfl, ?_⟩
      intro x hx
      rcases List.mem_cons.1 hx with rfl | hx
      · exact Or.inl hc
      · exact h2 x hx
    · rw [if_neg hc] at h
      simp only [Option.some.injEq, Prod.mk.injEq] at h
      exact ⟨[], by simp [h.2.2], by simp⟩

theorem xtoiLoop_consumed (s : List Char) :
    ∀ (n i n1 i1 : Nat) (rest : List Char), xtoiLoop s n i = some (n1, i1, rest) →
      ∃ ds, s = ds ++ rest ∧ ∀ c ∈ ds, addrChar c := by
  induction s with
  | nil =>
    intro n i n1 i1 rest h
    simp only [xtoiLoop, Option.some.injEq, Prod.mk.injEq] at h
    exact ⟨[], by simp [h.2.2], by simp⟩
  | cons c cs ih =>
    intro n i n1 i1 rest h
    have step : ∀ m j, addrChar c → xtoiLoop cs m j = some (n1, i1, rest) →
        ∃ ds, c :: cs = ds ++ rest ∧ ∀ x ∈ ds, addrChar x := by
      intro m j hc hrec
      obtain ⟨ds, h1, h2⟩ := ih _ _ _ _ _ hrec
      refine ⟨c :: ds, by rw [h1]; rfl, ?_⟩
      intro x hx
      rcases List.mem_cons.1 hx with rfl | hx
      · exact hc
      · exact h2 x hx
    simp only [xtoiLoop] at h
    by_cases hc : isDec c = true
    · rw [if_pos hc] at h
      split_ifs at h
      exact step _ _ (Or.inl hc) h
    · rw [if_neg hc] at h
      by_cases hl : isLowerHex c = true
      · rw [if_pos hl] at h
        split_ifs at h
        exact step _ _ (Or.inr (Or.inl hl)) h
      · rw [if_neg hl] at h
        by_cases hu : isUpperHex c = true
        · rw [if_pos hu] at h
          split_ifs at h
          exact step _ _ (Or.inr (Or.inr (Or.inl hu))) h
        · rw [if_neg hu] at h
          simp only [Option.some.injEq, Prod.mk.injEq] at h
          exact ⟨[], by simp [h.2.2], by simp⟩

theorem dtoi_consumed (s : List Char) (n : Nat) (rest : List Char)
    (h : dtoi s = some (n, rest)) : ∃ ds, s = ds ++ rest ∧ ∀ c ∈ ds, addrChar c := by
  unfold dtoi at h
  cases hl : dtoiLoop s 0 0 with
  | none => simp [hl] at h
  | some t =>
    obtain ⟨n1, i1, r1⟩ := t
    simp only [hl] at h
    split_ifs at h
    simp only [Option.some.injEq, Prod.mk.injEq] at h
    obtain ⟨-, rfl⟩ := h
    exact dtoiLoop_consumed s _ _ _ _ _ hl

theorem xtoi_consumed (s : List Char) (n : Nat) (rest : List Char)
    (h : xtoi s = some (n, rest)) : ∃ ds, s = ds ++ rest ∧ ∀ c ∈ ds, addrChar c := by
  unfold xtoi at h
  cases hl : xtoiLoop s 0 0 with
  | none => simp [hl] at h
  | some t =>
    obtain ⟨n1, i1, r1⟩ := t
    simp only [hl] at h
    split_ifs at h
    simp only [Option.some.injEq, Prod.mk.injEq] at h
    obtain ⟨-, rfl⟩ := h
    exact xtoiLoop_consumed s _ _ _ _ _ hl

theorem parseIPv4Octets_consumed (k : Nat) :
    ∀ (i : Nat) (s : List Char) (ps : List Nat) (r : List Char),
      parseIPv4Octets k i s = some (ps, r) →
      ∃ pre, s = pre ++ r ∧ ∀ c ∈ pre, addrChar c := by
  induction k with
  | zero =>
    intro i s ps r h
    simp only [parseIPv4Octets, Option.some.injEq, Prod.mk.injEq] at h
    exact ⟨[], by simp [h.2], by simp⟩
  | succ k ih =>
    intro i s ps r h
    cases s with
    | nil => simp [parseIPv4Octets] at h
    | cons c cs =>
      simp only [parseIPv4Octets] at h
      by_cases h1 : i > 0 ∧ c ≠ '.'
      · rw [if_pos h1] at h
        simp at h
      · rw [if_neg h1] at h
        cases hd : dtoi (if i > 0 then cs else c :: cs) with
        | none => simp [hd] at h
        | some nr =>
          obtain ⟨n, rest⟩ := nr
          simp only [hd] at h
          by_cases h2 : n > 255
          · rw [if_pos h2] at h
            simp at h
          · rw [if_neg h2] at h
            cases hrec : parseIPv4Octets k (i + 1) rest with
            | none => simp [hrec] at h
            | some pr =>
              obtain ⟨ps1, r1⟩ := pr
              simp only [hrec, Option.some.injEq, Prod.mk.injEq] at h
              obtain ⟨-, rfl⟩ := h
              obtain ⟨ds, e1, e2⟩ := dtoi_consumed _ _ _ hd
              obtain ⟨pre, e3, e4⟩ := ih _ _ _ _ hrec
              by_cases hi : i > 0
              · have hc : c = '.' := by
                  by_contra hne
                  exact h1 ⟨hi, hne⟩
                rw [if_pos hi] at e1
                refine ⟨c :: (ds ++ pre), by rw [e1, e3]; simp, ?_⟩
                intro x hx
                rcases List.mem_cons.1 hx with rfl | hx
                · exact Or.inr (Or.inr (Or.inr (Or.inl hc)))
                · rcases List.mem_append.1 hx with hx | hx
                  · exact e2 x hx
                  · exact e4 x hx
              · rw [if_neg hi] at e1
                refine ⟨ds ++ pre, by rw [e1, e3]; simp, ?_⟩
                intro x hx
                rcases List.mem_append.1 hx with hx | hx
                · exact e2 x hx
                · exact e4 x hx

theorem parseIPv4_chars (s : List Char) (ip : IP) (h : parseIPv4 s = some ip) :
    ∀ c ∈ s, addrChar c := by
  unfold parseIPv4 at h
  split at h
  · rename_i a b c d heq
    obtain ⟨pre, e1, e2⟩ := parseIPv4Octets_consumed _ _ _ _ _ heq
    rw [e1, List.append_nil]
    exact e2
  · simp at h

theorem addrChar_colon : addrChar ':' := Or.inr (Or.inr (Or.inr (Or.inr rfl)))

theorem parseIPv6Loop_consumed (fuel : Nat) :
    ∀ (s : List Char) (acc : List Nat) (ell : Option Nat) (s1 : List Char) (acc1 : List Nat)
      (ell1 : Option Nat), parseIPv6Loop fuel s acc ell = some (s1, acc1, ell1) →
      ∃ pre, s = pre ++ s1 ∧ ∀ c ∈ pre, addrChar c := by
  induction fuel with
  | zero =>
    intro s acc ell s1 acc1 ell1 h
    simp only [parseIPv6Loop] at h
    split_ifs at h
    simp only [Option.some.injEq, Prod.mk.injEq] at h
    exact ⟨[], by simp [h.1], by simp⟩
  | succ f ih =>
    intro s acc ell s1 acc1 ell1 h
    rw [parseIPv6Loop] at h
    by_cases hl : acc.length < IPv6len
    · rw [if_neg (not_not.2 hl)] at h
      cases hx : xtoi s with
      | none => simp [hx] at h
      | some nr =>
        obtain ⟨n, rest⟩ := nr
        obtain ⟨ds, hds, hdc⟩ := xtoi_consumed s n rest hx
        simp only [hx] at h
        by_cases hn : n > 0xFFFF
        · rw [if_pos hn] at h
          simp at h
        · rw [if_neg hn] at h
          by_cases hdot : rest.head? = some '.'
          · rw [if_pos hdot] at h
            by_cases c1 : ell = none ∧ acc.length ≠ IPv6len - IPv4len
            · rw [if_pos c1] at h
              simp at h
            · rw [if_neg c1] at h
              by_cases c2 : acc.length + IPv4len > IPv6len
              · rw [if_pos c2] at h
                simp at h
              · rw [if_neg c2] at h
                cases h4 : parseIPv4 s with
                | none => simp [h4] at h
                | some ip4 =>
                  simp only [h4, Option.some.injEq, Prod.mk.injEq] at h
                  obtain ⟨rfl, -, -⟩ := h
                  exact ⟨s, by simp, parseIPv4_chars s ip4 h4⟩
          · rw [if_neg hdot] at h
            cases rest with
            | nil =>
              simp only [Option.some.injEq, Prod.mk.injEq] at h
              obtain ⟨rfl, -, -⟩ := h
              exact ⟨ds, hds, hdc⟩
            | cons c rest1 =>
              simp only at h
              by_cases c3 : c ≠ ':' ∨ rest1 = []
              · rw [if_pos c3] at h
                simp at h
              · rw [if_neg c3] at h
                have hc : c = ':' := by
                  by_contra hne
                  exact c3 (Or.inl hne)
                subst hc
                split at h
                · rename_i rest2
                  by_cases c4 : ell ≠ none
                  · rw [if_pos c4] at h
                    simp at h
                  · rw [if_neg c4] at h
                    by_cases c5 : rest2 = []
                    · rw [if_pos c5] at h
                      simp only [Option.some.injEq, Prod.mk.injEq] at h
                      obtain ⟨rfl, -, -⟩ := h
                      refine ⟨ds ++ [':', ':'], by rw [hds, c5]; simp, ?_⟩
                      intro x hx
                      simp only [List.mem_append, List.mem_cons, List.mem_singleton,
                        List.not_mem_nil, or_false, or_self] at hx
                      rcases hx with hx | rfl
                      · exact hdc x hx
                      · exact addrChar_colon
                    · rw [if_neg c5] at h
                      obtain ⟨pre, e1, e2⟩ := ih _ _ _ _ _ _ h
                      refine ⟨ds ++ ':' :: ':' :: pre, by rw [hds, e1]; simp, ?_⟩
                      intro x hx
                      simp only [List.mem_append, List.mem_cons] at hx
                      rcases hx with hx | rfl | rfl | hx
                      · exact hdc x hx
                      · exact addrChar_colon
                      · exact addrChar_colon
                      · exact e2 x hx
                · obtain ⟨pre, e1, e2⟩ := ih _ _ _ _ _ _ h
                  refine ⟨ds ++ ':' :: pre, by rw [hds, e1]; simp, ?_⟩
                  intro x hx
                  simp only [List.mem_append, List.mem_cons] at hx
                  rcases hx with hx | rfl | hx
                  · exact hdc x hx
                  · exact addrChar_colon
                  · exact e2 x hx
    · rw [if_pos hl] at h
      simp only [Option.some.injEq, Prod.mk.injEq] at h
      exact ⟨[], by simp [h.1], by simp⟩

theorem parseIPv6Finish_chars (r : Option (List Char × List Nat × Option Nat)) (ip : IP)
    (h : parseIPv6Finish r = some ip) : ∃ acc ell, r = some ([], acc, ell) := by
  cases r with
  | none => simp [parseIPv6Finish] at h
  | some t =>
    obtain ⟨s, acc, ell⟩ := t
    simp only [parseIPv6Finish] at h
    by_cases hs : s ≠ []
    · rw [if_pos hs] at h
      simp at h
    · have : s = [] := not_not.1 hs
      subst this
      exact ⟨acc, ell, rfl⟩

theorem parseIPv6_chars (s : List Char) (ip : IP) (h : parseIPv6 s = some ip) :
    ∀ c ∈ s, addrChar c := by
  unfold parseIPv6 at h
  split at h
  · intro c hc
    simp only [List.mem_cons, List.mem_singleton, List.not_mem_nil, or_false, or_self] at hc
    subst hc
    exact addrChar_colon
  · rename_i s1
    obtain ⟨acc, ell, hr⟩ := parseIPv6Finish_chars _ ip h
    obtain ⟨pre, e1, e2⟩ := parseIPv6Loop_consumed 8 _ _ _ _ _ _ hr
    intro c hc
    simp only [List.mem_cons] at hc
    rcases hc with rfl | rfl | hc
    · exact addrChar_colon
    · exact addrChar_colon
    · rw [e1, List.append_nil] at hc
      exact e2 c hc
  · obtain ⟨acc, ell, hr⟩ := parseIPv6Finish_chars _ ip h
    obtain ⟨pre, e1, e2⟩ := parseIPv6Loop_consumed 8 _ _ _ _ _ _ hr
    rw [e1, List.append_nil]
    exact e2

theorem parseIPScan_chars (s t : List Char) (ip : IP) (h : parseIPScan s t = some ip) :
    ∀ c ∈ s, addrChar c := by
  induction t with
  | nil => simp [parseIPScan] at h
  | cons c cs ih =>
    simp only [parseIPScan] at h
    split_ifs at h
    · exact parseIPv4_chars s ip h
    · exact parseIPv6_chars s ip h
    · exact ih h

/-- A string with a character that is no digit, no letter `a`-`f` or `A`-`F`,
no dot and no colon is not an address for `ParseIP`. -/
theorem ParseIP_none_of_char (r : String) (c : Char) (hc : c ∈ r.toList)
    (hn : ¬ addrChar c) : ParseIP r = none := by
  cases h : ParseIP r with
  | none => rfl
  | some ip => exact absurd (parseIPScan_chars _ _ ip h c hc) hn

theorem indexByte_split (s : List Char) (c : Char) (i : Nat) (h : indexByte s c = some i) :
    i < s.length ∧ s.drop i = c :: s.drop (i + 1) := by
  unfold indexByte at h
  split_ifs at h with hlt
  simp only [Option.some.injEq] at h
  subst h
  refine ⟨hlt, ?_⟩
  rw [List.drop_eq_getElem_cons hlt, List.getElem_indexOf hlt]

theorem lastIndexByte_split (s : List Char) (c : Char) (i : Nat)
    (h : lastIndexByte s c = some i) : i < s.length ∧ s.drop i = c :: s.drop (i + 1) := by
  unfold lastIndexByte at h
  split_ifs at h with hlt
  simp only [Option.some.injEq] at h
  have hlt' : s.reverse.indexOf c < s.reverse.length := by simpa using hlt
  have hget := List.getElem_indexOf hlt'
  rw [List.getElem_reverse] at hget
  have hi : i < s.length := by omega
  refine ⟨hi, ?_⟩
  rw [List.drop_eq_getElem_cons hi]
  congr 1
  rw [← hget]
  congr 1
  exact h.symm

/-- A successful `SplitHostPort` returns the part before the last colon, or
the part between the brackets that precede it, and the part after it. -/
theorem SplitHostPort_ok (hostport host port : String)
    (h : SplitHostPort hostport = .ok (host, port)) :
    hostport.toList = host.toList ++ ':' :: port.toList ∨
      hostport.toList = '[' :: host.toList ++ ']' :: ':' :: port.toList := by
  show hostport.data = host.data ++ ':' :: port.data ∨
    hostport.data = '[' :: host.data ++ ']' :: ':' :: port.data
  unfold SplitHostPort at h
  simp only [String.toList] at h
  cases hi : lastIndexByte hostport.data ':' with
  | none => simp [hi] at h
  | some i =>
    obtain ⟨hil, hidrop⟩ := lastIndexByte_split _ _ _ hi
    simp only [hi] at h
    cases hs : splitHost hostport.data i with
    | error e => simp [hs] at h
    | ok t =>
      obtain ⟨hostL, j, k⟩ := t
      simp only [hs] at h
      split_ifs at h
      simp only [Except.ok.injEq, Prod.mk.injEq] at h
      obtain ⟨rfl, rfl⟩ := h
      unfold splitHost at hs
      by_cases hb : hostport.data.head? = some '['
      · rw [if_pos hb] at hs
        cases he : indexByte hostport.data ']' with
        | none => simp [he] at hs
        | some e =>
          obtain ⟨hel, hedrop⟩ := indexByte_split _ _ _ he
          simp only [he] at hs
          split_ifs at hs with c1 c2
          simp only [Except.ok.injEq, Prod.mk.injEq] at hs
          obtain ⟨rfl, -, -⟩ := hs
          right
          have h1 : hostport.data = hostport.data.take e ++ hostport.data.drop e :=
            (List.take_append_drop _ _).symm
          rw [hedrop, c2, hidrop] at h1
          cases htl : hostport.data with
          | nil => rw [htl] at hb; simp at hb
          | cons x xs =>
            rw [htl] at hb h1 hedrop
            simp only [List.head?_cons, Option.some.injEq] at hb
            subst hb
            cases e with
            | zero =>
              simp only [List.drop_zero, List.cons.injEq] at hedrop
              exact absurd hedrop.1 (by decide)
            | succ e' =>
              simp only [List.take_succ_cons, List.drop_succ_cons, List.drop_zero,
                List.cons_append, List.cons.injEq, true_and] at h1 ⊢
              exact h1
      · rw [if_neg hb] at hs
        split_ifs at hs
        simp only [Except.ok.injEq, Prod.mk.injEq] at hs
        obtain ⟨rfl, -, -⟩ := hs
        left
        have h1 : hostport.data = hostport.data.take i ++ hostport.data.drop i :=
          (List.take_append_drop _ _).symm
        rw [hidrop] at h1
        exact h1

end GoNet

namespace Gateway

/-! ## The tally and the collection loop -/

theorem count_incr (m : Tally) (a b : String) :
    count (incr m a) b = if a = b then count m a + 1 else count m b := by
  induction m with
  | nil =>
    by_cases h : a = b <;> simp [incr, count, h]
  | cons e rest ih =>
    obtain ⟨k, c⟩ := e
    by_cases hk : k = a
    · subst hk
      by_cases h : k = b <;> simp [incr, count, h]
    · by_cases h : a = b
      · subst h
        simp [incr, count, hk, ih]
      · by_cases hkb : k = b
        · subst hkb
          simp [incr, count, hk, h]
        · simp [incr, count, hk, h, hkb, ih]

theorem total_incr (m : Tally) (a : String) : total (incr m a) = total m + 1 := by
  induction m with
  | nil => simp [incr, total]
  | cons e rest ih =>
    obtain ⟨k, c⟩ := e
    by_cases hk : k = a
    · simp [incr, total, hk]; omega
    · simp only [incr, hk, if_false]
      simp only [total, List.map_cons, List.sum_cons] at ih ⊢
      omega

theorem keys_incr (m : Tally) (a : String) (x : String) :
    x ∈ (incr m a).map Prod.fst ↔ x = a ∨ x ∈ m.map Prod.fst := by
  induction m with
  | nil => simp [incr]
  | cons e rest ih =>
    obtain ⟨k, c⟩ := e
    by_cases hk : k = a
    · subst hk
      simp [incr]
    · simp only [incr, hk, if_false, List.map_cons, List.mem_cons, ih]
      tauto

theorem nodup_incr (m : Tally) (a : String) (h : (m.map Prod.fst).Nodup) :
    ((incr m a).map Prod.fst).Nodup := by
  induction m with
  | nil => simp [incr]
  | cons e rest ih =>
    obtain ⟨k, c⟩ := e
    simp only [List.map_cons, List.nodup_cons] at h
    by_cases hk : k = a
    · subst hk
      simpa [incr] using h
    · simp only [incr, hk, if_false, List.map_cons, List.nodup_cons]
      refine ⟨?_, ih h.2⟩
      rw [keys_incr]
      rintro (h1 | h1)
      · exact hk h1
      · exact h.1 h1

theorem count_le_total (m : Tally) (a : String) : count m a ≤ total m := by
  induction m with
  | nil => simp [count, total]
  | cons e rest ih =>
    obtain ⟨k, c⟩ := e
    simp only [total, List.map_cons, List.sum_cons] at ih ⊢
    by_cases hk : k = a
    · simp [count, hk]
    · simp only [count, hk, if_false]
      omega

theorem count_add_count_le (m : Tally) (a b : String) (hab : a ≠ b) :
    count m a + count m b ≤ total m := by
  induction m with
  | nil => simp [count, total]
  | cons e rest ih =>
    obtain ⟨k, c⟩ := e
    have ha := count_le_total rest a
    have hb := count_le_total rest b
    simp only [total, List.map_cons, List.sum_cons] at ih ha hb ⊢
    by_cases hk : k = a
    · have hkb : k ≠ b := fun h => hab (hk.symm.trans h)
      subst hk
      simp only [count, hkb, if_true, if_false]
      omega
    · by_cases hkb : k = b
      · simp only [count, hk, hkb, if_true, if_false]
        have : ¬ b = a := fun h => hab h.symm
        simp only [this, if_false]
        omega
      · simp only [count, hk, hkb, if_false]
        omega

theorem mem_of_count_pos (m : Tally) (a : String) (h : 0 < count m a) :
    (a, count m a) ∈ m := by
  induction m with
  | nil => simp [count] at h
  | cons e rest ih =>
    obtain ⟨k, c⟩ := e
    by_cases hk : k = a
    · subst hk
      simp [count]
    · simp only [count, hk, if_false] at h ⊢
      exact List.mem_cons_of_mem _ (ih h)

theorem count_of_mem (m : Tally) (a : String) (c : Nat) (hnd : (m.map Prod.fst).Nodup)
    (h : (a, c) ∈ m) : count m a = c := by
  induction m with
  | nil => simp at h
  | cons e rest ih =>
    obtain ⟨k, c1⟩ := e
    simp only [List.map_cons, List.nodup_cons] at hnd
    rcases List.mem_cons.1 h with h1 | h1
    · cases h1
      simp [count]
    · have hne : k ≠ a := by
        rintro rfl
        exact hnd.1 (List.mem_map.2 ⟨(k, c), h1, rfl⟩)
      simp only [count, hne, if_false]
      exact ih hnd.2 h1

theorem collect_snoc (received : List String) (addr : String) :
    collect (received ++ [addr]) = collectStep (collect received) addr := by
  simp [collect, List.foldl_append]

/-- The invariant of the collection loop, with the tally described from the
values received. -/
theorem collect_inv (received : List String) :
    total (collect received).addresses = (collect received).successfulResponses ∧
    (collect received).successfulResponses ≤ (collect received).peersQueried ∧
    (collect received).peersQueried = received.length ∧
    ((collect received).addresses.map Prod.fst).Nodup ∧
    (collect received).successfulResponses = received.countP (fun r => r ≠ "") ∧
    ∀ a, count (collect received).addresses a = if a = "" then 0 else received.count a := by
  induction received using List.reverseRecOn with
  | nil => simp [collect, Collect.init, total, count]
  | append_singleton l x ih =>
    obtain ⟨h1, h2, h3, h4, h5, h6⟩ := ih
    rw [collect_snoc]
    by_cases hx : x = ""
    · subst hx
      simp only [collectStep, ne_eq, not_true_eq_false, if_false]
      refine ⟨h1, by omega, by simp [h3], h4, ?_, ?_⟩
      · simp [List.countP_append, h5]
      · intro a
        rw [h6 a]
        by_cases ha : a = ""
        · simp [ha]
        · have : ¬ "" = a := fun h => ha h.symm
          simp [ha, List.count_append, this]
    · simp only [collectStep, ne_eq, hx, not_false_eq_true, if_true]
      refine ⟨by rw [total_incr, h1], by omega, by simp [h3], nodup_incr _ _ h4, ?_, ?_⟩
      · simp [List.countP_append, h5, hx]
      · intro a
        rw [count_incr, h6 a, h6 x]
        by_cases ha : a = ""
        · have : ¬ x = a := fun h => hx (h.trans ha)
          simp [ha, this]
          intro h; exact absurd h hx
        · by_cases hxa : x = a
          · subst hxa
            simp [hx, List.count_append]
          · have : ¬ a = x := fun h => hxa h.symm
            simp [ha, hxa, List.count_append, this]

/-! ## The majority evaluation -/

theorem findMajority_some (es : List (String × Nat)) (sr : Nat) (a : String)
    (h : findMajority es sr = some a) : ∃ c, (a, c) ∈ es ∧ c > sr / 2 := by
  induction es with
  | nil => simp [findMajority] at h
  | cons e rest ih =>
    obtain ⟨k, c⟩ := e
    by_cases hc : c > sr / 2
    · simp only [findMajority, hc, if_true, Option.some.injEq] at h
      subst h
      exact ⟨c, List.mem_cons_self _ _, hc⟩
    · simp only [findMajority, hc, if_false] at h
      obtain ⟨c1, h1, h2⟩ := ih h
      exact ⟨c1, List.mem_cons_of_mem _ h1, h2⟩

theorem findMajority_none (es : List (String × Nat)) (sr : Nat)
    (h : findMajority es sr = none) : ∀ a c, (a, c) ∈ es → ¬ c > sr / 2 := by
  induction es with
  | nil => simp
  | cons e rest ih =>
    obtain ⟨k, c⟩ := e
    by_cases hc : c > sr / 2
    · simp [findMajority, hc] at h
    · simp only [findMajority, hc, if_false] at h
      intro a c1 hm
      rcases List.mem_cons.1 hm with h1 | h1
      · cases h1
        exact hc
      · exact ih h a c1 h1

theorem getD_cons_eraseIdx_perm {α : Type} (xs : List α) (i : Nat) (d : α)
    (h : i < xs.length) : (xs.getD i d :: xs.eraseIdx i).Perm xs := by
  induction xs generalizing i with
  | nil => simp at h
  | cons x rest ih =>
    cases i with
    | zero => simp
    | succ j =>
      have hj : j < rest.length := by simpa using h
      simp only [List.getD_cons_succ, List.eraseIdx_cons_succ]
      exact (List.Perm.swap _ _ _).trans (List.Perm.cons _ (ih j hj))

theorem pickOrder_perm {α : Type} (ks : List Nat) (xs : List α) :
    (pickOrder ks xs).Perm xs := by
  induction ks generalizing xs with
  | nil => simp [pickOrder]
  | cons k ks ih =>
    cases xs with
    | nil => simp [pickOrder]
    | cons x rest =>
      simp only [pickOrder]
      have hlt : k % (rest.length + 1) < (x :: rest).length := by
        simp only [List.length_cons]
        exact Nat.mod_lt _ (Nat.succ_pos _)
      exact (List.Perm.cons _ (ih _)).trans (getD_cons_eraseIdx_perm _ _ _ hlt)

/-- At most one address holds a strict majority of the successful responses. -/
theorem majority_unique (received : List String) (a b : String)
    (ha : 2 * count (collect received).addresses a > (collect received).successfulResponses)
    (hb : 2 * count (collect received).addresses b > (collect received).successfulResponses) :
    a = b := by
  by_contra hab
  have h := count_add_count_le (collect received).addresses a b hab
  rw [(collect_inv received).1] at h
  omega

/-- The majority evaluation over any order of the entries returns exactly the
address that holds a strict majority. -/
theorem findMajority_iff (received : List String) (es : List (String × Nat))
    (hes : es.Perm (collect received).addresses) (a : String) :
    findMajority es (collect received).successfulResponses = some a ↔
      2 * count (collect received).addresses a > (collect received).successfulResponses := by
  have hinv := collect_inv received
  have key : ∀ x, findMajority es (collect received).successfulResponses = some x →
      2 * count (collect received).addresses x > (collect received).successfulResponses := by
    intro x hx
    obtain ⟨c, hc1, hc2⟩ := findMajority_some _ _ _ hx
    have := count_of_mem _ _ _ hinv.2.2.2.1 (hes.mem_iff.1 hc1)
    omega
  constructor
  · exact key a
  · intro h
    have hpos : 0 < count (collect received).addresses a := by omega
    have hmem := hes.mem_iff.2 (mem_of_count_pos _ _ hpos)
    cases hfm : findMajority es (collect received).successfulResponses with
    | none =>
      exact absurd (by omega) (findMajority_none _ _ hfm _ _ hmem)
    | some b =>
      rw [majority_unique received a b h (key b hfm)]

/-! ## The channel `returnChan` -/

theorem discoverIPHandler_length (conn : Exchange) : (discoverIPHandler conn).1.length = 1 := by
  unfold discoverIPHandler
  split
  · rfl
  · split <;> rfl

theorem roundTasks_flatten_length (env : RoundEnv) :
    (roundTasks env).flatten.length = env.peers.length := by
  unfold roundTasks
  induction env.peers with
  | nil => simp
  | cons p ps ih =>
    simp only [List.map_cons, List.flatten_cons, List.length_append, ih, List.length_cons]
    have := discoverIPHandler_length (env.net p "DiscoverIP")
    simp only [RPC]
    omega

theorem recvOne_none (k : Nat) (ts : List (List String)) (h : recvOne k ts = none) :
    ts.flatten = [] := by
  induction ts generalizing k with
  | nil => simp
  | cons t ts ih =>
    cases t with
    | nil =>
      cases hr : recvOne k ts with
      | none => simpa using ih k hr
      | some r => simp [recvOne, hr] at h
    | cons v vs =>
      cases k with
      | zero => simp [recvOne] at h
      | succ j =>
        cases hr : recvOne j ts <;> simp [recvOne, hr] at h

theorem recvOne_some (k : Nat) (ts ts1 : List (List String)) (v : String)
    (h : recvOne k ts = some (v, ts1)) : ts.flatten.Perm (v :: ts1.flatten) := by
  induction ts generalizing k ts1 with
  | nil => simp [recvOne] at h
  | cons t ts ih =>
    cases t with
    | nil =>
      cases hr : recvOne k ts with
      | none => simp [recvOne, hr] at h
      | some r =>
        obtain ⟨w, ts2⟩ := r
        simp only [recvOne, hr, Option.some.injEq, Prod.mk.injEq] at h
        obtain ⟨rfl, rfl⟩ := h
        simpa using ih k ts2 hr
    | cons x xs =>
      cases k with
      | zero =>
        simp only [recvOne, Option.some.injEq, Prod.mk.injEq] at h
        obtain ⟨rfl, rfl⟩ := h
        simp
      | succ j =>
        cases hr : recvOne j ts with
        | none =>
          simp only [recvOne, hr, Option.some.injEq, Prod.mk.injEq] at h
          obtain ⟨rfl, rfl⟩ := h
          simp
        | some r =>
          obtain ⟨w, ts2⟩ := r
          simp only [recvOne, hr, Option.some.injEq, Prod.mk.injEq] at h
          obtain ⟨rfl, rfl⟩ := h
          have h1 := ih j ts2 hr
          simp only [List.flatten_cons]
          exact (List.Perm.append_left _ h1).trans List.perm_middle

theorem drain_some (n : Nat) (sched : List Nat) (ts : List (List String))
    (h : n ≤ ts.flatten.length) :
    ∃ vs r, drain n sched ts = some (vs, r) ∧ vs.length = n ∧
      ts.flatten.Perm (vs ++ r.flatten) := by
  induction n generalizing sched ts with
  | zero => exact ⟨[], ts, rfl, rfl, by simp⟩
  | succ m ih =>
    cases hr : recvOne (sched.headD 0) ts with
    | none =>
      have := recvOne_none _ _ hr
      rw [this] at h
      simp at h
    | some r =>
      obtain ⟨v, ts1⟩ := r
      have hp := recvOne_some _ _ _ _ hr
      have hlen : m ≤ ts1.flatten.length := by
        have := hp.length_eq
        simp only [List.length_cons] at this
        omega
      obtain ⟨vs, r, h1, h2, h3⟩ := ih sched.tail ts1 hlen
      refine ⟨v :: vs, r, ?_, by simp [h2], ?_⟩
      · simp only [drain]
        rw [hr]
        simp only [h1]
      · exact hp.trans (by simpa using List.Perm.cons v h3)

/-- Every round's collection loop receives all its results: one per peer, a
permutation of the values the tasks send, and no task keeps a value to send. -/
theorem drain_round (env : RoundEnv) :
    ∃ received rest, drain env.peers.length env.arrival (roundTasks env) = some (received, rest) ∧
      received.length = env.peers.length ∧ rest.flatten = [] ∧
      received.Perm (roundTasks env).flatten := by
  obtain ⟨vs, r, h1, h2, h3⟩ := drain_some env.peers.length env.arrival (roundTasks env)
    (by rw [roundTasks_flatten_length])
  have hl := h3.length_eq
  rw [roundTasks_flatten_length, List.length_append, h2] at hl
  have hr : r.flatten = [] := List.length_eq_zero.1 (by omega)
  refine ⟨vs, r, h1, h2, hr, ?_⟩
  rw [hr, List.append_nil] at h3
  exact h3.symm

/-- The three ways a round can go, with the values received made explicit. -/
theorem pollRound_spec (minPeers : Nat) (env : RoundEnv) :
    ∃ received rest, drain env.peers.length env.arrival (roundTasks env) = some (received, rest) ∧
      roundCollect env = some (collect received) ∧
      pollRound minPeers env =
        if env.peers.length < minPeers then ([Event.wait], RoundOutcome.retry (retryFlag env))
        else if (collect received).successfulResponses < minPeers then
          (env.peers.map Event.dispatch ++ received.map Event.recv ++ [Event.wait],
            RoundOutcome.retry (retryFlag env))
        else
          match findMajority (pickOrder env.mapOrder (collect received).addresses)
            (collect received).successfulResponses with
          | some addr =>
            (env.peers.map Event.dispatch ++ received.map Event.recv, RoundOutcome.returned addr)
          | none =>
            (env.peers.map Event.dispatch ++ received.map Event.recv ++ [Event.wait],
              RoundOutcome.retry (retryFlag env)) := by
  obtain ⟨received, rest, h1, -, -, -⟩ := drain_round env
  refine ⟨received, rest, h1, by simp [roundCollect, h1], ?_⟩
  unfold pollRound
  by_cases hp : env.peers.length < minPeers
  · simp [hp]
  · simp only [hp, if_false, h1]

theorem managedIPFromPeers_append (minPeers : Nat) (s s1 : Bool) (pre envs : List RoundEnv)
    (h : afterRounds minPeers s pre = some s1) :
    (managedIPFromPeers minPeers s (pre ++ envs)).2 = (managedIPFromPeers minPeers s1 envs).2 := by
  induction pre generalizing s with
  | nil =>
    simp only [afterRounds, Option.some.injEq] at h
    subst h
    rfl
  | cons env pre ih =>
    cases s with
    | true => simp [afterRounds] at h
    | false =>
      simp only [afterRounds] at h
      simp only [List.cons_append, managedIPFromPeers]
      cases hr : pollRound minPeers env with
      | mk steps out =>
        rw [hr] at h
        cases out with
        | returned a => simp at h
        | blocked => simp at h
        | retry s2 =>
          simp only at h ⊢
          exact ih s2 h

theorem managedIPFromPeers_retry (minPeers : Nat) (env : RoundEnv) (envs : List RoundEnv)
    (h : (pollRound minPeers env).2 = .retry (retryFlag env)) :
    managedIPFromPeers minPeers false (env :: envs) =
      (.check false :: (pollRound minPeers env).1 ++
        (managedIPFromPeers minPeers (retryFlag env) envs).1,
       (managedIPFromPeers minPeers (retryFlag env) envs).2) := by
  cases hr : pollRound minPeers env with
  | mk steps out =>
    rw [hr] at h
    simp only at h
    subst h
    simp [managedIPFromPeers, hr]

theorem managedIPFromPeers_true (minPeers : Nat) (envs : List RoundEnv) :
    managedIPFromPeers minPeers true envs =
      ([.check true], .returned "" (some "interrupted by shutdown")) := by
  cases envs <;> rfl

theorem managedIPFromPeers_head (minPeers : Nat) (s : Bool) (envs : List RoundEnv) :
    (managedIPFromPeers minPeers s envs).1.head? = some (.check s) := by
  cases s with
  | true => simp [managedIPFromPeers]
  | false =>
    cases envs with
    | nil => simp [managedIPFromPeers]
    | cons env envs =>
      simp only [managedIPFromPeers]
      cases hr : pollRound minPeers env with
      | mk steps out => cases out <;> simp

theorem pollRound_no_check (minPeers : Nat) (env : RoundEnv) (s : Bool) :
    Event.check s ∉ (pollRound minPeers env).1 := by
  obtain ⟨received, rest, -, -, h3⟩ := pollRound_spec minPeers env
  rw [h3]
  split_ifs
  · simp
  · simp
  · split <;> simp

theorem pollRound_not_blocked (minPeers : Nat) (env : RoundEnv) :
    (pollRound minPeers env).2 ≠ .blocked := by
  obtain ⟨received, rest, -, -, h3⟩ := pollRound_spec minPeers env
  rw [h3]
  split_ifs
  · simp
  · simp
  · split <;> simp

theorem pollRound_retry (minPeers : Nat) (env : RoundEnv) (s : Bool)
    (h : (pollRound minPeers env).2 = .retry s) :
    s = retryFlag env ∧ (pollRound minPeers env).1.getLast? = some .wait := by
  obtain ⟨received, rest, -, -, h3⟩ := pollRound_spec minPeers env
  rw [h3] at h ⊢
  split_ifs at h ⊢
  · simp only [RoundOutcome.retry.injEq] at h
    simp [h]
  · simp only [RoundOutcome.retry.injEq] at h
    simp [h]
  · split at h
    · simp at h
    · rename_i hfm
      simp only [RoundOutcome.retry.injEq] at h
      simp [h, hfm]

theorem managedIPFromPeers_error (minPeers : Nat) (s : Bool) (envs : List RoundEnv) :
    ((∃ a e, (managedIPFromPeers minPeers s envs).2 = .returned a (some e)) ↔
      Event.check true ∈ (managedIPFromPeers minPeers s envs).1) ∧
    (∀ a e, (managedIPFromPeers minPeers s envs).2 = .returned a (some e) →
      a = "" ∧ e = "interrupted by shutdown" ∧
      (managedIPFromPeers minPeers s envs).1.getLast? = some (.check true)) := by
  induction envs generalizing s with
  | nil => cases s <;> simp [managedIPFromPeers]
  | cons env envs ih =>
    cases s with
    | true => simp [managedIPFromPeers]
    | false =>
      have hnc := pollRound_no_check minPeers env true
      simp only [managedIPFromPeers]
      cases hr : pollRound minPeers env with
      | mk steps out =>
        rw [hr] at hnc
        simp only at hnc
        cases out with
        | returned b => simp [hnc]
        | blocked => simp [hnc]
        | retry s2 =>
          obtain ⟨ih1, ih2⟩ := ih s2
          refine ⟨?_, ?_⟩
          · rw [ih1]
            simp [hnc]
          intro a e h
          obtain ⟨h1, h2, h3⟩ := ih2 a e h
          refine ⟨h1, h2, ?_⟩
          have hne : (managedIPFromPeers minPeers s2 envs).1 ≠ [] := by
            intro h0
            rw [h0] at h3
            simp at h3
          show ((Event.check false :: steps) ++ (managedIPFromPeers minPeers s2 envs).1).getLast?
            = some (Event.check true)
          rw [List.getLast?_append_of_ne_nil _ hne, h3]

theorem pollRound_few_responses (minPeers : Nat) (env : RoundEnv) (st : Collect)
    (hpeers : minPeers ≤ env.peers.length) (hst : roundCollect env = some st)
    (hfew : st.successfulResponses < minPeers) :
    (pollRound minPeers env).2 = .retry (retryFlag env) ∧
    (pollRound minPeers env).1.getLast? = some .wait := by
  obtain ⟨received, rest, -, h2, h3⟩ := pollRound_spec minPeers env
  rw [h2, Option.some.injEq] at hst
  subst hst
  rw [h3, if_neg (by omega), if_pos hfew]
  simp

theorem pollRound_no_majority (minPeers : Nat) (env : RoundEnv) (st : Collect)
    (hpeers : minPeers ≤ env.peers.length) (hst : roundCollect env = some st)
    (hnone : ∀ a, ¬ 2 * count st.addresses a > st.successfulResponses) :
    (pollRound minPeers env).2 = .retry (retryFlag env) ∧
    (pollRound minPeers env).1.getLast? = some .wait := by
  obtain ⟨received, rest, -, h2, h3⟩ := pollRound_spec minPeers env
  rw [h2, Option.some.injEq] at hst
  subst hst
  have hfm : findMajority (pickOrder env.mapOrder (collect received).addresses)
      (collect received).successfulResponses = none := by
    cases hfm : findMajority (pickOrder env.mapOrder (collect received).addresses)
        (collect received).successfulResponses with
    | none => rfl
    | some b =>
      exact absurd ((findMajority_iff received _ (pickOrder_perm env.mapOrder _) b).1 hfm)
        (hnone b)
  rw [h3, if_neg (by omega)]
  by_cases hs : (collect received).successfulResponses < minPeers
  · simp [hs]
  · simp [hs, hfm]

/-! ## The claims on the coordinator -/

/-- C1: in every polling round (reached with shutdown not signalled, at least
`minPeersForIPDiscovery` peers in the snapshot) in which the successful
responses reach the threshold and the tally count of an address `a` is more
than half of them (`2 * count a > successfulResponses`, which is the test
`count > successfulResponses / 2` of the code), the call returns `(a, nil)` in
that round. -/
theorem majority_address_returned (minPeers : Nat) (stopped : Bool) (pre : List RoundEnv)
    (env : RoundEnv) (envs : List RoundEnv) (st : Collect) (a : String)
    (hround : afterRounds minPeers stopped pre = some false)
    (hpeers : minPeers ≤ env.peers.length)
    (hst : roundCollect env = some st)
    (hsucc : minPeers ≤ st.successfulResponses)
    (hmaj : 2 * count st.addresses a > st.successfulResponses) :
    count st.addresses a > st.successfulResponses / 2 ∧
    (pollRound minPeers env).2 = .returned a ∧
    (managedIPFromPeers minPeers stopped (pre ++ env :: envs)).2 = .returned a none := by
  obtain ⟨received, rest, -, h2, h3⟩ := pollRound_spec minPeers env
  rw [h2, Option.some.injEq] at hst
  subst hst
  have hfm := (findMajority_iff received _ (pickOrder_perm env.mapOrder _) a).2 hmaj
  have hout : (pollRound minPeers env).2 = .returned a := by
    rw [h3, if_neg (by omega), if_neg (by omega), hfm]
  refine ⟨by omega, hout, ?_⟩
  rw [managedIPFromPeers_append minPeers stopped false pre _ hround]
  cases hr : pollRound minPeers env with
  | mk steps out =>
    rw [hr] at hout
    simp only at hout
    subst hout
    simp [managedIPFromPeers, hr]

/-- Scenario A: 5 peers, threshold 3, four responses `203.0.113.5` and one
failure return `203.0.113.5`. -/
theorem majority_address_returned_witness :
    roundCollect scenarioA = some ⟨[("203.0.113.5", 4)], 4, 5⟩ ∧
    (managedIPFromPeers 3 false [scenarioA]).2 = .returned "203.0.113.5" none :=
  ⟨by decide,
   (majority_address_returned 3 false [] scenarioA [] ⟨[("203.0.113.5", 4)], 4, 5⟩
      "203.0.113.5" (by decide) (by decide) (by decide) (by decide) (by decide)).2.2⟩

/-- C2: a round in which no address has `2 * count > successfulResponses`
(exact ties included) returns no address: it ends with the wait step and the
call goes on with the next round; and an address returned with a nil error
held a strict majority of the successful responses of the round that returned
it. -/
theorem no_majority_no_address :
    (∀ (minPeers : Nat) (stopped : Bool) (pre : List RoundEnv) (env : RoundEnv)
        (envs : List RoundEnv) (st : Collect),
        afterRounds minPeers stopped pre = some false →
        minPeers ≤ env.peers.length →
        roundCollect env = some st →
        (∀ a, ¬ 2 * count st.addresses a > st.successfulResponses) →
        (pollRound minPeers env).2 = .retry (retryFlag env) ∧
        (pollRound minPeers env).1.getLast? = some .wait ∧
        (managedIPFromPeers minPeers stopped (pre ++ env :: envs)).2 =
          (managedIPFromPeers minPeers (retryFlag env) envs).2) ∧
    (∀ (minPeers : Nat) (env : RoundEnv) (a : String),
        (pollRound minPeers env).2 = .returned a →
        ∃ st, roundCollect env = some st ∧ minPeers ≤ st.successfulResponses ∧
          2 * count st.addresses a > st.successfulResponses) ∧
    (∀ (minPeers : Nat) (stopped : Bool) (envs : List RoundEnv) (a : String),
        (managedIPFromPeers minPeers stopped envs).2 = .returned a none →
        ∃ env ∈ envs, ∃ st, roundCollect env = some st ∧
          (pollRound minPeers env).2 = .returned a ∧
          2 * count st.addresses a > st.successfulResponses) := by
  have part2 : ∀ (minPeers : Nat) (env : RoundEnv) (a : String),
      (pollRound minPeers env).2 = .returned a →
      ∃ st, roundCollect env = some st ∧ minPeers ≤ st.successfulResponses ∧
        2 * count st.addresses a > st.successfulResponses := by
    intro minPeers env a h
    obtain ⟨received, rest, -, h2, h3⟩ := pollRound_spec minPeers env
    refine ⟨collect received, h2, ?_⟩
    rw [h3] at h
    by_cases hp : env.peers.length < minPeers
    · simp [hp] at h
    · by_cases hs : (collect received).successfulResponses < minPeers
      · simp [hp, hs] at h
      · rw [if_neg hp, if_neg hs] at h
        cases hfm : findMajority (pickOrder env.mapOrder (collect received).addresses)
            (collect received).successfulResponses with
        | none => simp [hfm] at h
        | some b =>
          rw [hfm] at h
          simp only [RoundOutcome.returned.injEq] at h
          subst h
          exact ⟨by omega, (findMajority_iff received _ (pickOrder_perm env.mapOrder _) b).1 hfm⟩
  refine ⟨?_, part2, ?_⟩
  · intro minPeers stopped pre env envs st hround hpeers hst hnone
    have hout := pollRound_no_majority minPeers env st hpeers hst hnone
    refine ⟨hout.1, hout.2, ?_⟩
    rw [managedIPFromPeers_append minPeers stopped false pre _ hround,
      managedIPFromPeers_retry minPeers env envs hout.1]
  · intro minPeers stopped envs a h
    induction envs generalizing stopped with
    | nil => cases stopped <;> simp [managedIPFromPeers] at h
    | cons env envs ih =>
      cases stopped with
      | true => simp [managedIPFromPeers] at h
      | false =>
        simp only [managedIPFromPeers] at h
        cases hr : pollRound minPeers env with
        | mk steps out =>
          rw [hr] at h
          cases out with
          | returned b =>
            simp only [Result.returned.injEq, and_true] at h
            subst h
            have hb : (pollRound minPeers env).2 = .returned b := by rw [hr]
            obtain ⟨st, h1, -, h2⟩ := part2 minPeers env b hb
            exact ⟨env, List.mem_cons_self _ _, st, h1, hb, h2⟩
          | blocked => simp at h
          | retry s2 =>
            simp only at h
            obtain ⟨e, he, r⟩ := ih s2 h
            exact ⟨e, List.mem_cons_of_mem _ he, r⟩

/-- A tie of 2 votes against 2 with 4 successful responses: no address, the
call goes on to the next round. -/
theorem no_majority_no_address_witness :
    roundCollect scenarioTie = some ⟨[("203.0.113.9", 2), ("203.0.113.5", 2)], 4, 4⟩ ∧
    (pollRound 3 scenarioTie).2 = .retry false ∧
    (managedIPFromPeers 3 false ([] ++ scenarioTie :: [scenarioA])).2 =
      (managedIPFromPeers 3 false [scenarioA]).2 := by
  have h := no_majority_no_address.1 3 false [] scenarioTie [scenarioA]
    ⟨[("203.0.113.9", 2), ("203.0.113.5", 2)], 4, 4⟩ (by decide) (by decide) (by decide)
    (by
      intro a
      show ¬ 2 * count [("203.0.113.9", 2), ("203.0.113.5", 2)] a > 4
      simp only [count]
      split_ifs <;> omega)
  exact ⟨by decide, h.1, h.2.2⟩

/-- C5: a round whose successful responses stay below the threshold returns no
address and ends with the wait step, whatever the tally holds. -/
theorem too_few_responses_no_decision (minPeers : Nat) (stopped : Bool) (pre : List RoundEnv)
    (env : RoundEnv) (envs : List RoundEnv) (st : Collect)
    (hround : afterRounds minPeers stopped pre = some false)
    (hpeers : minPeers ≤ env.peers.length)
    (hst : roundCollect env = some st)
    (hfew : st.successfulResponses < minPeers) :
    (pollRound minPeers env).2 = .retry (retryFlag env) ∧
    (pollRound minPeers env).1.getLast? = some .wait ∧
    (∀ a, (pollRound minPeers env).2 ≠ .returned a) ∧
    (managedIPFromPeers minPeers stopped (pre ++ env :: envs)).2 =
      (managedIPFromPeers minPeers (retryFlag env) envs).2 := by
  have hout := pollRound_few_responses minPeers env st hpeers hst hfew
  refine ⟨hout.1, hout.2, ?_, ?_⟩
  · intro a
    rw [hout.1]
    simp
  · rw [managedIPFromPeers_append minPeers stopped false pre _ hround,
      managedIPFromPeers_retry minPeers env envs hout.1]

/-- Scenario B: 3 peers, threshold 3, responses `203.0.113.5`, `203.0.113.9`
and one failure give `successfulResponses = 2` and no decision. -/
theorem too_few_responses_no_decision_witness :
    roundCollect scenarioB = some ⟨[("203.0.113.5", 1), ("203.0.113.9", 1)], 2, 3⟩ ∧
    (pollRound 3 scenarioB).2 = .retry false ∧
    (pollRound 3 scenarioB).1.getLast? = some .wait :=
  have h := too_few_responses_no_decision 3 false [] scenarioB []
    ⟨[("203.0.113.5", 1), ("203.0.113.9", 1)], 2, 3⟩ (by decide) (by decide) (by decide)
    (by decide)
  ⟨by decide, h.1, h.2.1⟩

/-- C4: in a round whose snapshot has fewer than `minPeersForIPDiscovery`
peers no RPC is dispatched and no result is read: the only step is the wait
step, after which the next round starts with its shutdown check. -/
theorem too_few_peers_no_dispatch (minPeers : Nat) (stopped : Bool) (pre : List RoundEnv)
    (env : RoundEnv) (envs : List RoundEnv)
    (hround : afterRounds minPeers stopped pre = some false)
    (hfew : env.peers.length < minPeers) :
    pollRound minPeers env = ([.wait], .retry (retryFlag env)) ∧
    (∀ p, Event.dispatch p ∉ (pollRound minPeers env).1) ∧
    (∀ r, Event.recv r ∉ (pollRound minPeers env).1) ∧
    managedIPFromPeers minPeers false (env :: envs) =
      (.check false :: .wait :: (managedIPFromPeers minPeers (retryFlag env) envs).1,
       (managedIPFromPeers minPeers (retryFlag env) envs).2) ∧
    (managedIPFromPeers minPeers (retryFlag env) envs).1.head? = some (.check (retryFlag env)) ∧
    (managedIPFromPeers minPeers stopped (pre ++ env :: envs)).2 =
      (managedIPFromPeers minPeers (retryFlag env) envs).2 := by
  have h : pollRound minPeers env = ([.wait], .retry (retryFlag env)) := by
    unfold pollRound
    rw [if_pos hfew]
  have h2 : (pollRound minPeers env).2 = .retry (retryFlag env) := by rw [h]
  refine ⟨h, ?_, ?_, ?_, managedIPFromPeers_head _ _ _, ?_⟩
  · intro p
    rw [h]
    simp
  · intro r
    rw [h]
    simp
  · rw [managedIPFromPeers_retry minPeers env envs h2, h]
    rfl
  · rw [managedIPFromPeers_append minPeers stopped false pre _ hround,
      managedIPFromPeers_retry minPeers env envs h2]

/-- Two peers against a threshold of 3: the round is the wait step alone, and
the next round starts with the check. -/
theorem too_few_peers_no_dispatch_witness :
    pollRound 3 scenarioFewPeers = ([.wait], .retry true) ∧
    (managedIPFromPeers 3 false [scenarioFewPeers, scenarioA]).1 =
      [.check false, .wait, .check true] :=
  have h := too_few_peers_no_dispatch 3 false [] scenarioFewPeers [scenarioA] (by decide)
    (by decide)
  ⟨h.1, by rw [h.2.2.2.1]; rfl⟩

/-- C6: after every result drained in the collection loop the counts of the
tally sum to `successfulResponses`, which is at most `peersQueried`, the
number of results drained so far (it ends at the number of peers of the
snapshot); an empty result changes neither the tally nor
`successfulResponses`, a non-empty one adds one to `successfulResponses` and
to the entry of its address only. -/
theorem collection_invariant :
    (∀ env : RoundEnv, ∃ received rest,
        drain env.peers.length env.arrival (roundTasks env) = some (received, rest) ∧
        received.length = env.peers.length ∧
        ∀ k, total (collect (received.take k)).addresses =
              (collect (received.take k)).successfulResponses ∧
            (collect (received.take k)).successfulResponses ≤
              (collect (received.take k)).peersQueried ∧
            (collect (received.take k)).peersQueried = min k env.peers.length) ∧
    (∀ received : List String,
        total (collect received).addresses = (collect received).successfulResponses ∧
        (collect received).successfulResponses ≤ (collect received).peersQueried ∧
        (collect received).peersQueried = received.length) ∧
    (∀ (received : List String) (addr : String),
        collect (received ++ [addr]) = collectStep (collect received) addr) ∧
    (∀ st : Collect,
        collectStep st "" = ⟨st.addresses, st.successfulResponses, st.peersQueried + 1⟩) ∧
    (∀ (st : Collect) (addr : String), addr ≠ "" →
        (collectStep st addr).successfulResponses = st.successfulResponses + 1 ∧
        (collectStep st addr).peersQueried = st.peersQueried + 1 ∧
        count (collectStep st addr).addresses addr = count st.addresses addr + 1 ∧
        total (collectStep st addr).addresses = total st.addresses + 1 ∧
        ∀ b, b ≠ addr → count (collectStep st addr).addresses b = count st.addresses b) := by
  refine ⟨?_, ?_, collect_snoc, ?_, ?_⟩
  · intro env
    obtain ⟨received, rest, h1, h2, -, -⟩ := drain_round env
    refine ⟨received, rest, h1, h2, ?_⟩
    intro k
    obtain ⟨a1, a2, a3, -⟩ := collect_inv (received.take k)
    exact ⟨a1, a2, by rw [a3, List.length_take, h2]⟩
  · intro received
    obtain ⟨a1, a2, a3, -⟩ := collect_inv received
    exact ⟨a1, a2, a3⟩
  · intro st
    simp [collectStep]
  · intro st addr h
    have hs : collectStep st addr =
        ⟨incr st.addresses addr, st.successfulResponses + 1, st.peersQueried + 1⟩ := by
      simp [collectStep, h]
    rw [hs]
    refine ⟨rfl, rfl, ?_, total_incr _ _, ?_⟩
    · show count (incr st.addresses addr) addr = _
      rw [count_incr]
      simp
    · intro b hb
      show count (incr st.addresses addr) b = _
      rw [count_incr]
      have : ¬ addr = b := fun h1 => hb h1.symm
      simp [this]

/-- A non-empty result drained after three others: one more successful
response, one more vote for its address, none for another address. -/
theorem collection_invariant_witness :
    "203.0.113.5" ≠ "" ∧
    (collectStep (collect ["203.0.113.5", "", "203.0.113.9"]) "203.0.113.5").successfulResponses
      = (collect ["203.0.113.5", "", "203.0.113.9"]).successfulResponses + 1 ∧
    count (collectStep (collect ["203.0.113.5", "", "203.0.113.9"]) "203.0.113.5").addresses
      "203.0.113.5" = count (collect ["203.0.113.5", "", "203.0.113.9"]).addresses
        "203.0.113.5" + 1 :=
  have h := collection_invariant.2.2.2.2 (collect ["203.0.113.5", "", "203.0.113.9"])
    "203.0.113.5" (by decide)
  ⟨by decide, h.1, h.2.2.1⟩

/-- C9: the outcome of a round does not depend on the order in which the
results arrive nor on the iteration order of the tally map: the tally (as a
map) and `successfulResponses` are the same for every permutation of the
results, at most one address has a count above half of `successfulResponses`,
and the majority evaluation gives the same answer for every order of the
entries. -/
theorem outcome_order_independent :
    (∀ r1 r2 : List String, r1.Perm r2 →
        (collect r1).successfulResponses = (collect r2).successfulResponses ∧
        (collect r1).peersQueried = (collect r2).peersQueried ∧
        ∀ a, count (collect r1).addresses a = count (collect r2).addresses a) ∧
    (∀ (r : List String) (a b : String),
        count (collect r).addresses a > (collect r).successfulResponses / 2 →
        count (collect r).addresses b > (collect r).successfulResponses / 2 → a = b) ∧
    (∀ (r1 r2 : List String) (es1 es2 : List (String × Nat)), r1.Perm r2 →
        es1.Perm (collect r1).addresses → es2.Perm (collect r2).addresses →
        findMajority es1 (collect r1).successfulResponses =
          findMajority es2 (collect r2).successfulResponses) ∧
    (∀ (minPeers : Nat) (env : RoundEnv) (arrival mapOrder : List Nat),
        (pollRound minPeers { env with arrival := arrival, mapOrder := mapOrder }).2 =
          (pollRound minPeers env).2) := by
  have part1 : ∀ r1 r2 : List String, r1.Perm r2 →
      (collect r1).successfulResponses = (collect r2).successfulResponses ∧
      (collect r1).peersQueried = (collect r2).peersQueried ∧
      ∀ a, count (collect r1).addresses a = count (collect r2).addresses a := by
    intro r1 r2 hp
    obtain ⟨-, -, a3, -, a5, a6⟩ := collect_inv r1
    obtain ⟨-, -, b3, -, b5, b6⟩ := collect_inv r2
    refine ⟨by rw [a5, b5, hp.countP_eq], by rw [a3, b3, hp.length_eq], ?_⟩
    intro a
    rw [a6, b6, hp.count_eq]
  have part3 : ∀ (r1 r2 : List String) (es1 es2 : List (String × Nat)), r1.Perm r2 →
      es1.Perm (collect r1).addresses → es2.Perm (collect r2).addresses →
      findMajority es1 (collect r1).successfulResponses =
        findMajority es2 (collect r2).successfulResponses := by
    intro r1 r2 es1 es2 hp h1 h2
    obtain ⟨p1, -, p3⟩ := part1 r1 r2 hp
    apply Option.ext
    intro a
    simp only [Option.mem_def]
    rw [findMajority_iff r1 es1 h1 a, findMajority_iff r2 es2 h2 a, p1, p3 a]
  refine ⟨part1, ?_, part3, ?_⟩
  · intro r a b ha hb
    exact majority_unique r a b (by omega) (by omega)
  · intro minPeers env arrival mapOrder
    obtain ⟨r1, rest1, d1, -, h1⟩ := pollRound_spec minPeers
      { env with arrival := arrival, mapOrder := mapOrder }
    obtain ⟨r2, rest2, d2, -, h2⟩ := pollRound_spec minPeers env
    obtain ⟨r1', rest1', d1', -, -, q1⟩ := drain_round
      { env with arrival := arrival, mapOrder := mapOrder }
    obtain ⟨r2', rest2', d2', -, -, q2⟩ := drain_round env
    rw [d1, Option.some.injEq, Prod.mk.injEq] at d1'
    rw [d2, Option.some.injEq, Prod.mk.injEq] at d2'
    obtain ⟨rfl, -⟩ := d1'
    obtain ⟨rfl, -⟩ := d2'
    have hp : r1.Perm r2 := q1.trans q2.symm
    obtain ⟨p1, -, -⟩ := part1 r1 r2 hp
    have hfm := part3 r1 r2 _ _ hp (pickOrder_perm mapOrder (collect r1).addresses)
      (pickOrder_perm env.mapOrder (collect r2).addresses)
    rw [h1, h2, p1]
    rw [p1] at hfm
    show (if env.peers.length < minPeers then
        (([Event.wait], RoundOutcome.retry (retryFlag env)) : List Event × RoundOutcome)
      else if (collect r2).successfulResponses < minPeers then _ else
        (match findMajority (pickOrder mapOrder (collect r1).addresses)
          (collect r2).successfulResponses with
        | some addr => _
        | none => _)).2 = _
    rw [hfm]
    split_ifs
    · rfl
    · rfl
    · split <;> rfl

/-- The results of scenario A in two arrival orders, the entries of the tally
in two orders: the same decision. -/
theorem outcome_order_independent_witness :
    ["203.0.113.5", "203.0.113.9", "", "203.0.113.5"].Perm
      ["", "203.0.113.5", "203.0.113.5", "203.0.113.9"] ∧
    findMajority [("203.0.113.5", 2), ("203.0.113.9", 1)]
      (collect ["203.0.113.5", "203.0.113.9", "", "203.0.113.5"]).successfulResponses =
    findMajority [("203.0.113.9", 1), ("203.0.113.5", 2)]
      (collect ["", "203.0.113.5", "203.0.113.5", "203.0.113.9"]).successfulResponses :=
  ⟨by decide,
   outcome_order_independent.2.2.1 ["203.0.113.5", "203.0.113.9", "", "203.0.113.5"]
    ["", "203.0.113.5", "203.0.113.5", "203.0.113.9"]
    [("203.0.113.5", 2), ("203.0.113.9", 1)] [("203.0.113.9", 1), ("203.0.113.5", 2)]
    (by decide) (by decide) (by decide)⟩

/-- C3: the call returns a non-nil error exactly when the check at the top of a
round finds shutdown signalled; it then returns the empty address with the
error "interrupted by shutdown", and the check is the last step taken (no RPC
is dispatched in that round).  A round that passes the check never blocks and
either returns an address with a nil error or ends with the wait step and a
new round: so with too few peers, too few successful responses or no
majority.  Once shutdown is signalled in a round that ends with the wait
step, the next round returns interrupted. -/
theorem error_only_on_shutdown :
    (∀ (minPeers : Nat) (envs : List RoundEnv),
        managedIPFromPeers minPeers true envs =
          ([.check true], .returned "" (some "interrupted by shutdown"))) ∧
    (∀ (minPeers : Nat) (s : Bool) (envs : List RoundEnv),
        (∃ a e, (managedIPFromPeers minPeers s envs).2 = .returned a (some e)) ↔
          Event.check true ∈ (managedIPFromPeers minPeers s envs).1) ∧
    (∀ (minPeers : Nat) (s : Bool) (envs : List RoundEnv) (a e : String),
        (managedIPFromPeers minPeers s envs).2 = .returned a (some e) →
        a = "" ∧ e = "interrupted by shutdown" ∧
          (managedIPFromPeers minPeers s envs).1.getLast? = some (.check true)) ∧
    (∀ (minPeers : Nat) (env : RoundEnv),
        (pollRound minPeers env).2 ≠ .blocked ∧
        ((∃ a, (pollRound minPeers env).2 = .returned a) ∨
          ((pollRound minPeers env).2 = .retry (retryFlag env) ∧
            (pollRound minPeers env).1.getLast? = some .wait))) ∧
    (∀ (minPeers : Nat) (env : RoundEnv) (st : Collect), roundCollect env = some st →
        (env.peers.length < minPeers ∨ st.successfulResponses < minPeers ∨
          ∀ a, ¬ 2 * count st.addresses a > st.successfulResponses) →
        (pollRound minPeers env).2 = .retry (retryFlag env)) ∧
    (∀ (minPeers : Nat) (env : RoundEnv) (envs : List RoundEnv),
        (pollRound minPeers env).2 = .retry (retryFlag env) →
        (env.stopEarly = true ∨ env.stopInWait = true) →
        (managedIPFromPeers minPeers false (env :: envs)).2 =
          .returned "" (some "interrupted by shutdown") ∧
        (managedIPFromPeers minPeers false (env :: envs)).1 =
          .check false :: (pollRound minPeers env).1 ++ [.check true]) := by
  refine ⟨managedIPFromPeers_true, fun m s envs => (managedIPFromPeers_error m s envs).1,
    fun m s envs => (managedIPFromPeers_error m s envs).2, ?_, ?_, ?_⟩
  · intro minPeers env
    refine ⟨pollRound_not_blocked minPeers env, ?_⟩
    cases hr : (pollRound minPeers env).2 with
    | returned a => exact Or.inl ⟨a, rfl⟩
    | blocked => exact absurd hr (pollRound_not_blocked minPeers env)
    | retry s =>
      obtain ⟨h1, h2⟩ := pollRound_retry minPeers env s hr
      subst h1
      exact Or.inr ⟨rfl, h2⟩
  · intro minPeers env st hst h
    rcases Nat.lt_or_ge env.peers.length minPeers with hp | hp
    · unfold pollRound
      rw [if_pos hp]
    · rcases h with h | h | h
      · omega
      · exact (pollRound_few_responses minPeers env st hp hst h).1
      · exact (pollRound_no_majority minPeers env st hp hst h).1
  · intro minPeers env envs hretry hstop
    have hflag : retryFlag env = true := by
      unfold retryFlag
      rcases hstop with h | h <;> simp [h]
    rw [managedIPFromPeers_retry minPeers env envs hretry, hflag, managedIPFromPeers_true]
    exact ⟨rfl, rfl⟩

/-- Shutdown signalled during the wait step of a round with too few peers: the
next round returns interrupted right after its check. -/
theorem error_only_on_shutdown_witness :
    (pollRound 3 scenarioFewPeers).2 = .retry (retryFlag scenarioFewPeers) ∧
    (managedIPFromPeers 3 false [scenarioFewPeers, scenarioA]).2 =
      .returned "" (some "interrupted by shutdown") :=
  ⟨by decide,
   (error_only_on_shutdown.2.2.2.2.2 3 scenarioFewPeers [scenarioA] (by decide)
      (Or.inr (by decide))).1⟩

/-- C8: every task of a round sends exactly one value on `returnChan`
whatever its exchange yields: the empty string when the read fails, when the
response is over the 100-byte ceiling and when the address does not parse, the
`String()` form of the parsed address otherwise.  Hence the collection loop,
which receives one value per peer of the snapshot, never blocks, receives the
values of the tasks (in some order), and leaves no task with a value to
send. -/
theorem every_task_emits_one_result :
    (∀ (net : String → String → Exchange) (peer : String),
        ∃ r, (RPC net peer "DiscoverIP" discoverIPHandler).1 = [r]) ∧
    (∀ err, (discoverIPHandler (.failed err)).1 = [""]) ∧
    (∀ payload : String, payload.utf8ByteSize > 100 →
        (discoverIPHandler (.response payload)).1 = [""]) ∧
    (∀ payload : String, GoNet.ParseIP payload = none →
        (discoverIPHandler (.response payload)).1 = [""]) ∧
    (∀ (conn : Exchange) (err : String), ReadObject conn 100 = .error err →
        discoverIPHandler conn = ([""], some err)) ∧
    (∀ (conn : Exchange) (address : String) (ip : GoNet.IP),
        ReadObject conn 100 = .ok address → GoNet.ParseIP address = some ip →
        discoverIPHandler conn = ([GoNet.IPString ip], none)) ∧
    (∀ env : RoundEnv, ∃ received rest,
        drain env.peers.length env.arrival (roundTasks env) = some (received, rest) ∧
        received.length = env.peers.length ∧
        (∀ t ∈ rest, t = []) ∧
        received.Perm (roundTasks env).flatten) ∧
    (∀ (minPeers : Nat) (env : RoundEnv), (pollRound minPeers env).2 ≠ .blocked) ∧
    (∀ (minPeers : Nat) (s : Bool) (envs : List RoundEnv),
        (managedIPFromPeers minPeers s envs).2 ≠ .blocked) := by
  refine ⟨?_, ?_, ?_, ?_, ?_, ?_, ?_, pollRound_not_blocked, ?_⟩
  · intro net peer
    have h := discoverIPHandler_length (net peer "DiscoverIP")
    obtain ⟨r, hr⟩ := List.length_eq_one.1 h
    exact ⟨r, hr⟩
  · intro err
    rfl
  · intro payload h
    simp [discoverIPHandler, ReadObject, h]
  · intro payload h
    unfold discoverIPHandler ReadObject
    simp only
    split_ifs
    · rfl
    · simp [h]
  · intro conn err h
    simp only [discoverIPHandler, h]
  · intro conn address ip h1 h2
    simp only [discoverIPHandler, h1, h2]
  · intro env
    obtain ⟨received, rest, h1, h2, h3, h4⟩ := drain_round env
    refine ⟨received, rest, h1, h2, ?_, h4⟩
    intro t ht
    cases t with
    | nil => rfl
    | cons x xs =>
      have : x ∈ rest.flatten := List.mem_flatten.2 ⟨_, ht, List.mem_cons_self _ _⟩
      rw [h3] at this
      simp at this
  · intro minPeers s envs
    induction envs generalizing s with
    | nil => cases s <;> simp [managedIPFromPeers]
    | cons env envs ih =>
      cases s with
      | true => simp [managedIPFromPeers]
      | false =>
        have hnb := pollRound_not_blocked minPeers env
        simp only [managedIPFromPeers]
        cases hr : pollRound minPeers env with
        | mk steps out =>
          rw [hr] at hnb
          cases out with
          | returned b => simp
          | blocked => simp at hnb
          | retry s2 => exact ih s2

/-- A response that parses (`2001:DB8::1`) is sent on in its canonical form,
one that does not parse (`not an address`) as the empty string. -/
theorem every_task_emits_one_result_witness :
    ((discoverIPHandler (.response "2001:DB8::1")).1 = ["2001:db8::1"]) ∧
    ((discoverIPHandler (.response "not an address")).1 = [""]) :=
  ⟨congrArg Prod.fst (every_task_emits_one_result.2.2.2.2.2.1 (.response "2001:DB8::1")
      "2001:DB8::1" [0x20, 0x01, 0x0d, 0xb8, 0, 0, 0, 0, 0, 0, 0, 0, 0, 0, 0, 1] rfl
      (by decide)),
   every_task_emits_one_result.2.2.2.1 "not an address" (by decide)⟩

/-- C7: when the remote endpoint of the connection splits into host and port
(the endpoint is then `host:port` or `[host]:port`), `discoverPeerIP` hands
exactly that host, and nothing else, to `encoding.WriteObject` and returns the
result of the write; the endpoint
`198.51.100.7:4400` yields the payload `198.51.100.7`.  When the endpoint does
not split, `discoverPeerIP` returns an error and writes nothing. -/
theorem discoverPeerIP_writes_host :
    (∀ (now connStdDeadline : Nat) (conn : PeerConn) (host port : String),
        GoNet.SplitHostPort conn.remoteAddr = .ok (host, port) →
        (conn.remoteAddr.toList = host.toList ++ ':' :: port.toList ∨
          conn.remoteAddr.toList = '[' :: host.toList ++ ']' :: ':' :: port.toList) ∧
        (discoverPeerIP now connStdDeadline conn).1.written = conn.written ++ [host] ∧
        (discoverPeerIP now connStdDeadline conn).2 = conn.writeErr ∧
        (discoverPeerIP now connStdDeadline conn).1.deadline = some (now + connStdDeadline)) ∧
    (∀ (now connStdDeadline : Nat) (conn : PeerConn) (err : GoNet.AddrError),
        GoNet.SplitHostPort conn.remoteAddr = .error err →
        (discoverPeerIP now connStdDeadline conn).1.written = conn.written ∧
        (discoverPeerIP now connStdDeadline conn).2 =
          some (AddContext err "failed to split host from port")) ∧
    GoNet.SplitHostPort "198.51.100.7:4400" = .ok ("198.51.100.7", "4400") ∧
    (∀ now connStdDeadline : Nat,
        (discoverPeerIP now connStdDeadline inboundConn).1.written = ["198.51.100.7"] ∧
        (discoverPeerIP now connStdDeadline inboundConn).2 = none) := by
  refine ⟨?_, ?_, rfl, ?_⟩
  · intro now d conn host port h
    have h1 : GoNet.SplitHostPort (conn.SetDeadline (now + d)).remoteAddr = .ok (host, port) := h
    simp only [discoverPeerIP, h1, WriteObject]
    exact ⟨GoNet.SplitHostPort_ok _ _ _ h, rfl, rfl, rfl⟩
  · intro now d conn err h
    have h1 : GoNet.SplitHostPort (conn.SetDeadline (now + d)).remoteAddr = .error err := h
    simp only [discoverPeerIP, h1]
    exact ⟨rfl, trivial⟩
  · intro now d
    have h1 : GoNet.SplitHostPort (inboundConn.SetDeadline (now + d)).remoteAddr =
        .ok ("198.51.100.7", "4400") := rfl
    simp only [discoverPeerIP, h1, WriteObject]
    exact ⟨rfl, rfl⟩

/-- The responder scenario, and an endpoint without a port. -/
theorem discoverPeerIP_writes_host_witness :
    (discoverPeerIP 7 120 inboundConn).1.written = inboundConn.written ++ ["198.51.100.7"] ∧
    (discoverPeerIP 7 120 ⟨"198.51.100.7", none, none, []⟩).1.written = [] ∧
    (discoverPeerIP 7 120 ⟨"198.51.100.7", none, none, []⟩).2 =
      some "failed to split host from port: address 198.51.100.7: missing port in address" :=
  ⟨(discoverPeerIP_writes_host.1 7 120 inboundConn "198.51.100.7" "4400" rfl).2.1,
   (discoverPeerIP_writes_host.2.1 7 120 ⟨"198.51.100.7", none, none, []⟩
      ⟨"missing port in address", "198.51.100.7"⟩ rfl).1,
   by decide⟩

/-- C10, where the code departs from it: a response that differs from
`203.0.113.5` in whitespace only is not parsed by `net.ParseIP`, its task
sends the empty string, and it is not counted in the tally. -/
theorem whitespace_variant_not_tallied :
    (discoverIPHandler (.response "203.0.113.5")).1 = ["203.0.113.5"] ∧
    GoNet.ParseIP " 203.0.113.5" = none ∧
    (discoverIPHandler (.response " 203.0.113.5")).1 = [""] ∧
    (discoverIPHandler (.response "203.0.113.5\n")).1 = [""] ∧
    (discoverIPHandler (.response "203.0.113.5")).1 ≠
      (discoverIPHandler (.response " 203.0.113.5")).1 ∧
    collect ((discoverIPHandler (.response "203.0.113.5")).1 ++
      (discoverIPHandler (.response " 203.0.113.5")).1) = ⟨[("203.0.113.5", 1)], 1, 2⟩ := by
  decide

/-- C10, as the code has it: two responses received (read within the
100-byte ceiling) that `net.ParseIP` parses to the same address make their
tasks send the same tally key, the `String()` form of that address; the key is
not the empty string, so both responses are counted in the same entry of the
tally; and the key is a fixed point of canonicalization: parsing it gives the
address back, and rendering that gives the key again.  A response that holds a
whitespace character is not parsed, and its task sends the empty string. -/
theorem same_address_same_key :
    (∀ (r1 r2 : String) (ip : GoNet.IP),
        ReadObject (.response r1) 100 = .ok r1 → ReadObject (.response r2) 100 = .ok r2 →
        GoNet.ParseIP r1 = some ip → GoNet.ParseIP r2 = some ip →
        (discoverIPHandler (.response r1)).1 = [GoNet.IPString ip] ∧
        (discoverIPHandler (.response r2)).1 = [GoNet.IPString ip] ∧
        GoNet.IPString ip ≠ "" ∧
        collect ((discoverIPHandler (.response r1)).1 ++ (discoverIPHandler (.response r2)).1) =
          ⟨[(GoNet.IPString ip, 2)], 2, 2⟩ ∧
        GoNet.ParseIP (GoNet.IPString ip) = some ip ∧
        (GoNet.ParseIP (GoNet.IPString ip)).map GoNet.IPString = some (GoNet.IPString ip)) ∧
    (∀ (r : String) (c : Char), c ∈ r.toList →
        (c = ' ' ∨ c = '\t' ∨ c = '\n' ∨ c = '\r') →
        GoNet.ParseIP r = none ∧ (discoverIPHandler (.response r)).1 = [""]) := by
  refine ⟨?_, ?_⟩
  · intro r1 r2 ip h1 h2 hp1 hp2
    have e1 : (discoverIPHandler (.response r1)).1 = [GoNet.IPString ip] := by
      simp only [discoverIPHandler, h1, hp1]
    have e2 : (discoverIPHandler (.response r2)).1 = [GoNet.IPString ip] := by
      simp only [discoverIPHandler, h2, hp2]
    obtain ⟨hfix, hne⟩ := GoNet.ParseIP_IPString r1 ip hp1
    refine ⟨e1, e2, hne, ?_, hfix, by rw [hfix]; rfl⟩
    rw [e1, e2]
    simp [collect, collectStep, Collect.init, hne, incr]
  · intro r c hc hw
    have hn : ¬ GoNet.addrChar c := by
      rcases hw with rfl | rfl | rfl | rfl <;> (unfold GoNet.addrChar; decide)
    have hp := GoNet.ParseIP_none_of_char r c hc hn
    refine ⟨hp, ?_⟩
    unfold discoverIPHandler ReadObject
    simp only
    split_ifs
    · rfl
    · simp [hp]

/-- The IPv4-mapped form `::ffff:203.0.113.5` and the dotted form
`203.0.113.5` of one address give the one key `203.0.113.5`. -/
theorem same_address_same_key_witness :
    GoNet.ParseIP "::ffff:203.0.113.5" = some (GoNet.IPv4 203 0 113 5) ∧
    GoNet.ParseIP "203.0.113.5" = some (GoNet.IPv4 203 0 113 5) ∧
    (discoverIPHandler (.response "::ffff:203.0.113.5")).1 =
      [GoNet.IPString (GoNet.IPv4 203 0 113 5)] ∧
    GoNet.IPString (GoNet.IPv4 203 0 113 5) = "203.0.113.5" :=
  ⟨by decide, by decide,
   (same_address_same_key.1 "::ffff:203.0.113.5" "203.0.113.5" (GoNet.IPv4 203 0 113 5)
      rfl rfl (by decide) (by decide)).1,
   by decide⟩

end Gateway

end Sia
